import Mathlib

/-!
Verification of the crypto core of `fish.py` (weechat-fish).

Shallow embedding conventions:
* byte strings are `List Nat` (every entry `< 256` where it matters);
* message text is `List Char`;
* Python functions that can raise become `Option`/`Except`-valued;
* Python's arbitrary-precision `pow(b, e, m)` is modelled by `powMod`,
  a binary modular exponentiation with explicit fuel so that it reduces
  in the kernel.
The external collaborators (pycryptodome's Blowfish cipher, the stdlib
base64 codec) are not part of the repository; where a claim needs them
they appear as explicit function parameters constrained by hypotheses.
-/

set_option maxRecDepth 100000

namespace Fish

/-- `bytes2int` from fish.py: variable length big endian bytes to integer. -/
def bytes2int (b : List Nat) : Nat :=
  b.foldl (fun n p => n * 256 + p) 0

/-- Helper for `int2bytes`: the `while n: b.insert(0, n % 256); n //= 256`
loop, with structural fuel (the loop runs at most `fuel` times; any
`fuel ≥ n` is enough since `n` strictly decreases). -/
def int2bytesAux : Nat → Nat → List Nat
  | 0, _ => []
  | fuel + 1, n => if n = 0 then [] else int2bytesAux fuel (n / 256) ++ [n % 256]

/-- `int2bytes` from fish.py: integer to variable length big endian bytes;
`0` encodes as the single byte `0x00`. -/
def int2bytes (n : Nat) : List Nat :=
  if n = 0 then [0] else int2bytesAux (n + 1) n

/-- Binary (square-and-multiply) modular exponentiation with fuel,
modelling Python's three-argument `pow`; tail recursive so that it
reduces inside the kernel on 1080-bit arguments.  `powMod_eq` certifies
that it computes `b ^ e % m`, which is all the embedding relies on. -/
def powModAux : Nat → Nat → Nat → Nat → Nat → Nat
  | 0, _, _, acc, m => acc % m
  | fuel + 1, b, e, acc, m =>
    if e = 0 then acc % m
    else powModAux fuel (b * b % m) (e / 2) (if e % 2 = 1 then acc * b % m else acc) m

/-- Python's `pow(b, e, m)`. -/
def powMod (b e m : Nat) : Nat := powModAux (e + 1) (b % m) e 1 m

theorem powModAux_eq (fuel : Nat) :
    ∀ e, e < 2 ^ fuel → ∀ b acc m, powModAux fuel b e acc m = acc * b ^ e % m := by
  induction fuel with
  | zero =>
    intro e he b acc m
    rw [pow_zero] at he
    have h0 : e = 0 := by omega
    subst h0
    simp [powModAux]
  | succ f ih =>
    intro e he b acc m
    rw [powModAux]
    by_cases h0 : e = 0
    · simp [h0]
    · simp only [h0, if_false]
      have hdiv : e / 2 < 2 ^ f := by
        rw [pow_succ] at he; omega
      rw [ih (e / 2) hdiv (b * b % m) _ m]
      by_cases h2 : e % 2 = 1
      · rw [if_pos h2]
        conv_lhs => rw [Nat.mul_mod, Nat.mod_mod_of_dvd _ (dvd_refl m), ← Nat.pow_mod,
          ← Nat.mul_mod]
        congr 1
        rw [mul_assoc, ← pow_two, ← pow_mul, ← pow_succ']
        have h21 : 2 * (e / 2) + 1 = e := by omega
        rw [h21]
      · rw [if_neg h2]
        conv_lhs => rw [Nat.mul_mod, ← Nat.pow_mod, ← Nat.mul_mod]
        congr 1
        rw [← pow_two, ← pow_mul]
        congr 2
        omega

theorem powMod_eq (b e m : Nat) : powMod b e m = b ^ e % m := by
  have he : e < 2 ^ (e + 1) :=
    lt_of_lt_of_le (Nat.lt_two_pow e) (Nat.pow_le_pow_right (by norm_num) (by omega))
  rw [powMod, powModAux_eq (e + 1) e he (b % m) 1 m, one_mul, ← Nat.pow_mod]

/-- Generator `g_dh1080 = 2` from fish.py. -/
def g_dh1080 : Nat := 2

/-- The fixed 1080-bit prime `p_dh1080` from fish.py. -/
def p_dh1080 : Nat :=
  0xFBE1022E23D213E8ACFA9AE8B9DFADA3EA6B7AC7A7B7E95AB5EB2DF858921FEADE95E6AC7BE7DE6ADBAB8A783E7AF7A7FA6A2B7BEB1E72EAE2B72F9FA2BFB2A2EFBEFAC868BADB3E828FA8BADFADA3E4CC1BE7E8AFE85E9698A783EB68FA07A77AB6AD7BEB618ACF9CA2897EB28A6189EFA07AB99A8A7FA9AE299EFA7BA66DEAFEFBEFBF0B7D8B

/-- `q_dh1080 = (p_dh1080 - 1) // 2` from fish.py. -/
def q_dh1080 : Nat := (p_dh1080 - 1) / 2

/-- `msg.startswith(pre)` on character lists: `lstartsWith pre msg`. -/
def lstartsWith : List Char → List Char → Bool
  | [], _ => true
  | _ :: _, [] => false
  | p :: ps, c :: cs => p == c && lstartsWith ps cs

/-- Python `s.split(' ')` (no maxsplit): splits at every single space,
keeping empty fields. -/
def pySplitSp : List Char → List (List Char)
  | [] => [[]]
  | c :: cs =>
    if c = ' ' then [] :: pySplitSp cs
    else
      match pySplitSp cs with
      | [] => [[c]]
      | t :: ts => (c :: t) :: ts

/-- Python `s.split(' ', 1)` followed by unpacking into two variables:
`none` when there is no space (the unpacking would raise). -/
def split1 : List Char → Option (List Char × List Char)
  | [] => none
  | c :: cs =>
    if c = ' ' then some ([], cs)
    else (split1 cs).map (fun p => (c :: p.1, p.2))

/-- `padto` from fish.py: right-pad with the filler until the length is a
multiple of `l`; already-aligned input is returned unchanged.  Generic in
the element so it serves both the byte-level calls (filler `0`) and the
character-level call inside `blowcrypt_unpack` (where it is only ever
reached with aligned input). -/
def padto {α : Type} (filler : α) (msg : List α) (l : Nat) : List α :=
  if msg.length % l = 0 then msg else msg ++ List.replicate (l - msg.length % l) filler

/-
## Wire Codec A ("blowcrypt" base64), fish.py lines 222-253
-/

/-- The blowcrypt alphabet `B64`. -/
def b64A : List Char :=
  "./0123456789abcdefghijklmnopqrstuvwxyzABCDEFGHIJKLMNOPQRSTUVWXYZ".toList

/-- `B64[i]` (always called with `i < 64`). -/
def chA (i : Nat) : Char := b64A.getD i '.'

/-- `B64.index(c)`: `none` models the `ValueError` on a character outside
the alphabet. -/
def idxA (c : Char) : Option Nat := b64A.findIdx? (fun x => x == c)

/-- The inner `for i in range(6): res += B64[right & 0x3f]; right >>= 6`
loop of `blowcrypt_b64encode`, emitting six characters LSB-group-first. -/
def encWordA (w : Nat) : List Char :=
  [chA (w &&& 0x3f), chA (w >>> 6 &&& 0x3f), chA (w >>> 12 &&& 0x3f),
   chA (w >>> 18 &&& 0x3f), chA (w >>> 24 &&& 0x3f), chA (w >>> 30 &&& 0x3f)]

/-- `blowcrypt_b64encode`: 8 bytes at a time, big-endian words `left` from
the first 4 bytes and `right` from the last 4 (`struct.unpack('>LL', …)`);
`none` models the `struct.error` raised when the input length is not a
multiple of 8. -/
def blowcrypt_b64encode : List Nat → Option (List Char)
  | [] => some []
  | b0 :: b1 :: b2 :: b3 :: b4 :: b5 :: b6 :: b7 :: rest =>
    let left := ((b0 * 256 + b1) * 256 + b2) * 256 + b3
    let right := ((b4 * 256 + b5) * 256 + b6) * 256 + b7
    (blowcrypt_b64encode rest).map (fun tail => encWordA right ++ encWordA left ++ tail)
  | _ => none

/-- The `for i, p in enumerate(s[0:6]): acc |= B64.index(p) << (i * 6)`
accumulation of `blowcrypt_b64decode`. -/
def accumAGo : List Char → Nat → Nat → Option Nat
  | [], _, acc => some acc
  | c :: cs, i, acc =>
    match idxA c with
    | none => none
    | some v => accumAGo cs (i + 1) (acc ||| v <<< (i * 6))

def accumA (cs : List Char) : Option Nat := accumAGo cs 0 0

/-- The `for i in range(0, 4): res.append((w & (0xFF << ((3-i)*8))) >> ((3-i)*8))`
loop of `blowcrypt_b64decode`. -/
def bytes4 (w : Nat) : List Nat :=
  [(w &&& (0xFF <<< 24)) >>> 24, (w &&& (0xFF <<< 16)) >>> 16,
   (w &&& (0xFF <<< 8)) >>> 8, w &&& 0xFF]

/-- `blowcrypt_b64decode`: 12 characters at a time (`s[0:6]` builds `right`,
`s[6:12]` builds `left`, then the four data bytes of `left` and of `right`
are appended); the final chunk may be shorter than 12 characters, in which
case its missing characters simply contribute nothing to the accumulators,
exactly as the Python slices do. -/
def blowcrypt_b64decode : List Char → Option (List Nat)
  | [] => some []
  | c0 :: c1 :: c2 :: c3 :: c4 :: c5 :: c6 :: c7 :: c8 :: c9 :: c10 :: c11 :: rest => do
    let right ← accumA [c0, c1, c2, c3, c4, c5]
    let left ← accumA [c6, c7, c8, c9, c10, c11]
    let tail ← blowcrypt_b64decode rest
    pure (bytes4 left ++ bytes4 right ++ tail)
  | cs => do
    let right ← accumA (cs.take 6)
    let left ← accumA (cs.drop 6)
    pure (bytes4 left ++ bytes4 right)

/-
## Message packer/unpacker, fish.py lines 256-313
-/

/-- The decrypt-side post-processing `plain.strip(b'\x00').replace(b'\n', b'')`
from the last line of `blowcrypt_unpack`.  Python's `strip` removes the
given byte from BOTH ends; `replace` removes every newline byte. -/
def stripReplace (bs : List Nat) : List Nat :=
  (((bs.dropWhile (· == 0)).reverse.dropWhile (· == 0)).reverse).filter (· != 10)

/-- `blowcrypt_pack`.  The ECB arm is fully embedded; `encryptECB` stands
for the external pycryptodome `cipher.encrypt`.  The CBC arm delegates to
the external CBC cipher (fresh random IV) plus the stdlib base64 encoder,
abstracted here as the whole-arm function carried inside `cbcArm`. -/
def blowcrypt_pack (msg : List Nat) (encryptECB : List Nat → List Nat)
    (cbcArm : Option (List Nat → List Char)) : Option (List Char) :=
  match cbcArm with
  | some enc => some ("+OK *".toList ++ enc (padto 0 msg 8))
  | none => (blowcrypt_b64encode (encryptECB (padto 0 msg 8))).map
      (fun cs => "+OK ".toList ++ cs)

/-- `blowcrypt_unpack`.  `decryptECB` is the external ECB `cipher.decrypt`,
`stdB64dec` the external stdlib `base64.b64decode` (`none` = decode error),
`cbcDecrypt iv ct` the external CBC decryption.  All failure modes collapse
to `Except.error ()`, matching the `ValueError` contract of the source. -/
def blowcrypt_unpack (msg : List Char) (decryptECB : List Nat → List Nat)
    (stdB64dec : List Char → Option (List Nat))
    (cbcDecrypt : List Nat → List Nat → List Nat) : Except Unit (List Nat) :=
  if ¬ (lstartsWith "+OK ".toList msg = true ∨ lstartsWith "mcps ".toList msg = true) then
    .error ()
  else
    match split1 msg with
    | none => .error ()
    | some (_, rest) =>
      if lstartsWith "*".toList rest then
        let rest := rest.drop 1
        let rest := if rest.length % 4 = 0 then rest
          else rest ++ List.replicate (4 - rest.length % 4) '='
        match stdB64dec rest with
        | none => .error ()
        | some raw =>
          let iv := raw.take 8
          let raw := raw.drop 8
          .ok (stripReplace (cbcDecrypt iv (padto 0 raw 8)))
      else
        if rest.length < 12 then .error ()
        else
          let rest := if rest.length % 12 = 0 then rest
            else rest.take (rest.length - rest.length % 12)
          match blowcrypt_b64decode (padto (Char.ofNat 0) rest 12) with
          | none => .error ()
          | some raw =>
            if raw = [] then .error ()
            else .ok (stripReplace (decryptECB raw))

/-
## Wire Codec B (DH1080 base64), fish.py lines 333-426
-/

/-- The DH1080 alphabet `b64`. -/
def b64B : List Char :=
  "ABCDEFGHIJKLMNOPQRSTUVWXYZabcdefghijklmnopqrstuvwxyz0123456789+/".toList

/-- `b64[i]` (always called with `i < 64`). -/
def chB (i : Nat) : Char := b64B.getD i 'A'

/-- The bits of one byte, most significant first: exactly the values of
`s[i >> 3] & m` as the encoder's mask `m` walks `0x80, 0x40, …, 0x01`. -/
def bitsOfByte (b : Nat) : List Bool :=
  [b.testBit 7, b.testBit 6, b.testBit 5, b.testBit 4,
   b.testBit 3, b.testBit 2, b.testBit 1, b.testBit 0]

/-- The whole input as a most-significant-bit-first bitstream. -/
def bitsOf : List Nat → List Bool
  | [] => []
  | b :: bs => bitsOfByte b ++ bitsOf bs

/-- The encoder's 6-bit accumulator `t`: bits are shifted in one at a time
(`t |= bit; …; t <<= 1`), so a full group holds its six bits MSB-first. -/
def groupVal (bs : List Bool) : Nat :=
  bs.foldl (fun t b => t * 2 + (if b then 1 else 0)) 0

/-- The main loop of `dh1080_b64encode` (fish.py lines 341-361) over the
bitstream: each complete 6-bit group emits one alphabet character; at the
end `m = 5 - j % 6` and the pending bits, left-justified to 6 bits
(`t <<= m` after the loop's own `t <<= 1`), emit one extra character
whenever `m ≠ 0` — in particular a spurious value-0 character when the bit
count is a multiple of 6, and no character only in the impossible
`j % 6 = 5` case. -/
def encGroupsB : List Bool → List Char
  | x1 :: x2 :: x3 :: x4 :: x5 :: x6 :: rest =>
    chB (groupVal [x1, x2, x3, x4, x5, x6]) :: encGroupsB rest
  | rest =>
    if rest.length = 5 then [] else [chB (groupVal rest <<< (6 - rest.length))]

/-- `dh1080_b64encode`.  The output buffer is `d = [0] * len(s) * 2` and the
loop finishes with the terminator write `d[k] = 0`, so when the emitted
character count `k` reaches `2 * len(s)` the source raises `IndexError`:
this happens exactly for inputs of length 0 and 1 (e.g. one byte emits two
characters and then `d[2]` is out of range). -/
def dh1080_b64encode (s : List Nat) : Except Unit (List Char) :=
  let cs := encGroupsB (bitsOf s)
  if cs.length < 2 * s.length then .ok cs else .error ()

/-- The decoder's reverse table `buf`: `buf[ord(b64[i])] = i`, any other
character of codepoint < 256 reads 0, and a codepoint ≥ 256 raises
(`buf` has only 256 entries). -/
def lookupB (c : Char) : Except Unit Nat :=
  match b64B.findIdx? (fun x => x == c) with
  | some i => .ok i
  | none => if c.toNat < 256 then .ok 0 else .error ()

/-- The tail-trimming loop of `dh1080_b64decode` (fish.py lines 381-385),
given the reversed `s[0 : len s - 1]`: leading (i.e. originally trailing)
characters whose table value is 0 are dropped; the walk stops at the first
non-zero value. -/
def trimRevB : List Char → Except Unit (List Char)
  | [] => .ok []
  | c :: cs =>
    match lookupB c with
    | .error _ => .error ()
    | .ok 0 => trimRevB cs
    | .ok _ => .ok (c :: cs)

/-- The byte-reconstruction loop of `dh1080_b64decode` (fish.py lines
389-426) on the first `L` characters: four characters yield three bytes;
a trailing group of 3, 2 or 1 characters yields 2, 1 or 0 bytes (the loop
breaks before writing a byte whose second character is missing, and
`d[0 : i - 1]` drops the partially written slot); a lone leftover
character is never even looked up. -/
def decQuadsB : List Char → Except Unit (List Nat)
  | c0 :: c1 :: c2 :: c3 :: rest => do
    let v0 ← lookupB c0
    let v1 ← lookupB c1
    let v2 ← lookupB c2
    let v3 ← lookupB c3
    let tail ← decQuadsB rest
    pure (((v0 <<< 2) % 256 ||| v1 >>> 4) :: ((v1 <<< 4) % 256 ||| v2 >>> 2) ::
      ((v2 <<< 6) % 256 ||| v3 % 256) :: tail)
  | [c0, c1, c2] => do
    let v0 ← lookupB c0
    let v1 ← lookupB c1
    let v2 ← lookupB c2
    pure [(v0 <<< 2) % 256 ||| v1 >>> 4, (v1 <<< 4) % 256 ||| v2 >>> 2]
  | [c0, c1] => do
    let v0 ← lookupB c0
    let v1 ← lookupB c1
    pure [(v0 <<< 2) % 256 ||| v1 >>> 4]
  | _ => .ok []

/-- `dh1080_b64decode`: raise if fewer than 2 characters; trim trailing
zero-valued characters (never looking at the very last character, since the
trim loop runs over `reversed(range(L - 1))`); raise if fewer than 2
characters remain; then decode the first `L` characters. -/
def dh1080_b64decode (s : List Char) : Except Unit (List Nat) :=
  if s.length < 2 then .error ()
  else
    match trimRevB s.dropLast.reverse with
    | .error _ => .error ()
    | .ok revFront =>
      let L := revFront.length + 1
      if L < 2 then .error ()
      else decQuadsB (s.take L)

/-
## DH1080 key exchange state machine, fish.py lines 429-501
-/

/-- `dh_validate_public` (RFC 2631 subgroup check): `1 == pow(public, q, p)`. -/
def dh_validate_public (pub q p : Nat) : Bool := 1 == powMod pub q p

/-- `DH1080Ctx` (fields `public`, `private`, `secret`, `state`, `cbc`;
`private` is renamed `priv` because it is a Lean keyword). -/
structure DH1080Ctx where
  pub : Nat
  priv : Nat
  secret : Nat
  state : Nat
  cbc : Bool
deriving DecidableEq

/-- The accept condition of the sampling loop in `DH1080Ctx.__init__`:
`2 <= public <= p - 1 and dh_validate_public(public, q, p) == 1`. -/
def dh1080_accept (pub : Nat) : Prop :=
  2 ≤ pub ∧ pub ≤ p_dh1080 - 1 ∧ dh_validate_public pub q_dh1080 p_dh1080 = true

instance (pub : Nat) : Decidable (dh1080_accept pub) := by
  unfold dh1080_accept; infer_instance

/-- The keypair-sampling loop of `DH1080Ctx.__init__`: each element of
`samples` stands for the bytes of one `urandom(1080 // 8)` draw; the loop
keeps resampling until a draw is accepted (`none` when the modelled random
stream runs out first — the Python loop would simply keep drawing). -/
def dh1080_keygen : List (List Nat) → Option (Nat × Nat)
  | [] => none
  | sample :: rest =>
    let priv := bytes2int sample
    let pub := powMod g_dh1080 priv p_dh1080
    if dh1080_accept pub then some (priv, pub) else dh1080_keygen rest

/-- `DH1080Ctx.__init__`: a fresh context from the first accepted draw,
with `secret = 0`, `state = 0`. -/
def mkDH1080Ctx (samples : List (List Nat)) (cbc : Bool) : Option DH1080Ctx :=
  (dh1080_keygen samples).map (fun pr => ⟨pr.2, pr.1, 0, 0, cbc⟩)

/-- `dh1080_pack`: in state 0 the context moves to state 1 and the command
token is `"DH1080_INIT "`, otherwise `"DH1080_FINISH "`; the Wire-Codec-B
encoding of the big-endian public value follows, then `" CBC"` when
`ctx.cbc`.  The state mutation happens before the encoder runs, so it
survives an encoder failure (hence the pair with an `Except` message). -/
def dh1080_pack (ctx : DH1080Ctx) : DH1080Ctx × Except Unit (List Char) :=
  if ctx.state = 0 then
    ({ ctx with state := 1 },
     (dh1080_b64encode (int2bytes ctx.pub)).map
       (fun enc => "DH1080_INIT ".toList ++ enc ++ (if ctx.cbc then " CBC".toList else [])))
  else
    (ctx,
     (dh1080_b64encode (int2bytes ctx.pub)).map
       (fun enc => "DH1080_FINISH ".toList ++ enc ++ (if ctx.cbc then " CBC".toList else [])))

/-- `dh1080_unpack`: returns the (possibly mutated) context together with
the Python result — `.ok true` for the single `return True` exit, and
`.error ()` for every `raise ValueError`.  In the state-0 branch
`ctx.state = 1` is assigned BEFORE the `try` block, so the state change
survives a subsequent validation failure. -/
def dh1080_unpack (msg : List Char) (ctx : DH1080Ctx) : DH1080Ctx × Except Unit Bool :=
  if ¬ lstartsWith "DH1080_".toList msg then (ctx, .error ())
  else if ctx.state = 0 then
    if ¬ (lstartsWith "DH1080_INIT ".toList msg = true ∨
        lstartsWith "DH1080_INIT_CBC ".toList msg = true) then (ctx, .error ())
    else
      let ctx1 := { ctx with state := 1 }
      match pySplitSp msg with
      | cmd :: public_raw :: rest =>
        match dh1080_b64decode public_raw with
        | .error _ => (ctx1, .error ())
        | .ok bs =>
          let pubv := bytes2int bs
          if ¬ (1 < pubv ∧ pubv < p_dh1080) then (ctx1, .error ())
          else
            ({ ctx1 with
                secret := powMod pubv ctx1.priv p_dh1080,
                cbc := rest.contains "CBC".toList || cmd == "DH1080_INIT_CBC".toList },
             .ok true)
      | _ => (ctx1, .error ())
  else if ctx.state = 1 then
    if ¬ lstartsWith "DH1080_FINISH ".toList msg then (ctx, .error ())
    else
      match pySplitSp msg with
      | _cmd :: public_raw :: rest =>
        match dh1080_b64decode public_raw with
        | .error _ => (ctx, .error ())
        | .ok bs =>
          let pubv := bytes2int bs
          if ¬ (1 < pubv ∧ pubv < p_dh1080) then (ctx, .error ())
          else
            ({ ctx with
                secret := powMod pubv ctx.priv p_dh1080,
                cbc := rest.contains "CBC".toList },
             .ok true)
      | _ => (ctx, .error ())
  else (ctx, .ok true)

/-- The context states reachable from a freshly constructed `DH1080Ctx`
under `dh1080_pack` and `dh1080_unpack`. -/
inductive Reach : DH1080Ctx → Prop where
  | init (priv : Nat) (cbc : Bool)
      (hacc : dh1080_accept (powMod g_dh1080 priv p_dh1080)) :
      Reach ⟨powMod g_dh1080 priv p_dh1080, priv, 0, 0, cbc⟩
  | pack {ctx : DH1080Ctx} : Reach ctx → Reach (dh1080_pack ctx).1
  | unpack {ctx : DH1080Ctx} (msg : List Char) :
      Reach ctx → Reach (dh1080_unpack msg ctx).1

/-
## Proof-side auxiliary definitions for the codec-B analysis
-/

/-- The 6-bit group VALUES of the codec-B encoding of a byte string,
three bytes to four values, with the encoder's trailing partial/spurious
value included (shown equal to the character stream of `dh1080_b64encode`
in `encB_gvals`). -/
def gvals : List Nat → List Nat
  | b0 :: b1 :: b2 :: rest =>
    b0 / 4 :: (b0 % 4 * 16 + b1 / 16) :: (b1 % 16 * 4 + b2 / 64) :: b2 % 64 :: gvals rest
  | [b0, b1] => [b0 / 4, b0 % 4 * 16 + b1 / 16, b1 % 16 * 4]
  | [b0] => [b0 / 4, b0 % 4 * 16]
  | [] => [0]

/-- The byte-reconstruction arithmetic of `dh1080_b64decode` on 6-bit
VALUES (shown to match `decQuadsB` on in-alphabet characters in
`decQuadsB_map_chB`). -/
def dqv : List Nat → List Nat
  | v0 :: v1 :: v2 :: v3 :: rest =>
    ((v0 <<< 2) % 256 ||| v1 >>> 4) :: ((v1 <<< 4) % 256 ||| v2 >>> 2) ::
      ((v2 <<< 6) % 256 ||| v3 % 256) :: dqv rest
  | [v0, v1, v2] => [(v0 <<< 2) % 256 ||| v1 >>> 4, (v1 <<< 4) % 256 ||| v2 >>> 2]
  | [v0, v1] => [(v0 <<< 2) % 256 ||| v1 >>> 4]
  | _ => []

/-- The post-processing as the SPEC's words describe it (for comparison
with the embedded `stripReplace`): strip only the TRAILING zero bytes,
then remove every newline byte. -/
def stripReplaceSpec (bs : List Nat) : List Nat :=
  ((bs.reverse.dropWhile (· == 0)).reverse).filter (· != 10)

/-- The Wire-Codec-B-decoded public value carried by a DH1080 message:
the integer decoded from the second space-separated token (`none` when the
message has no such token or the token does not decode). -/
def decodedPublic (msg : List Char) : Option Nat :=
  match pySplitSp msg with
  | _ :: tok :: _ =>
    match dh1080_b64decode tok with
    | .ok bs => some (bytes2int bs)
    | .error _ => none
  | _ => none

/-- The Wire-Codec-B encoding of `p_dh1080 - 1` (135 bytes, 181 characters). -/
def encPm1 : List Char :=
  ((dh1080_b64encode (int2bytes (p_dh1080 - 1))).toOption).getD []

/-- An inbound `DH1080_INIT` message whose public value is `p_dh1080 - 1`. -/
def msgPm1 : List Char := "DH1080_INIT ".toList ++ encPm1

/-
## Bit-arithmetic helper lemmas
-/

theorem and63 (x : Nat) : x &&& 63 = x % 64 := by
  have h := Nat.and_pow_two_sub_one_eq_mod x 6
  norm_num at h
  exact h

theorem or_low {b : Nat} (i a : Nat) (h : b < 2 ^ i) : 2 ^ i * a ||| b = 2 ^ i * a + b :=
  (Nat.mul_add_lt_is_or h a).symm

theorem or_high {acc : Nat} (k v : Nat) (h : acc < 2 ^ k) :
    acc ||| v <<< k = 2 ^ k * v + acc := by
  rw [Nat.shiftLeft_eq, Nat.lor_comm, mul_comm v (2 ^ k)]
  exact (Nat.mul_add_lt_is_or h v).symm

theorem t255 (i : Nat) : (255 : Nat).testBit i = decide (i < 8) := by
  have h : (255 : Nat) = 2 ^ 8 - 1 := by norm_num
  rw [h, Nat.testBit_two_pow_sub_one]

theorem mask_shift (w k : Nat) : (w &&& (255 <<< k)) >>> k = w >>> k % 256 := by
  apply Nat.eq_of_testBit_eq
  intro i
  have h256 : (256 : Nat) = 2 ^ 8 := by norm_num
  conv_rhs => rw [h256, Nat.testBit_mod_two_pow, Nat.testBit_shiftRight]
  simp [Nat.testBit_shiftRight, Nat.testBit_and, Nat.testBit_shiftLeft, t255,
    Nat.le_add_right, Nat.add_sub_cancel_left, Bool.and_comm]

/-
## Wire Codec A: encode/decode inverse on 8-byte blocks
-/

theorem idxA_chA : ∀ v : Nat, v < 64 → idxA (chA v) = some v := by decide

theorem chA_ne_star : ∀ v : Nat, v < 64 → chA v ≠ '*' := by decide

theorem and63_lt (x : Nat) : x &&& 63 < 64 := by
  rw [and63]; exact Nat.mod_lt _ (by norm_num)

theorem accumA_encWordA (w : Nat) (hw : w < 2 ^ 32) : accumA (encWordA w) = some w := by
  have h0 := idxA_chA (w &&& 63) (and63_lt w)
  have h1 := idxA_chA (w >>> 6 &&& 63) (and63_lt _)
  have h2 := idxA_chA (w >>> 12 &&& 63) (and63_lt _)
  have h3 := idxA_chA (w >>> 18 &&& 63) (and63_lt _)
  have h4 := idxA_chA (w >>> 24 &&& 63) (and63_lt _)
  have h5 := idxA_chA (w >>> 30 &&& 63) (and63_lt _)
  simp only [encWordA, accumA, accumAGo, h0, h1, h2, h3, h4, h5]
  simp only [and63, Nat.shiftRight_eq_div_pow]
  norm_num
  rw [or_high 6 _ (by omega), or_high 12 _ (by omega), or_high 18 _ (by omega),
    or_high 24 _ (by omega), or_high 30 _ (by omega)]
  norm_num
  omega

theorem bytes4_word (b0 b1 b2 b3 : Nat) (h0 : b0 < 256) (h1 : b1 < 256) (h2 : b2 < 256)
    (h3 : b3 < 256) : bytes4 (((b0 * 256 + b1) * 256 + b2) * 256 + b3) = [b0, b1, b2, b3] := by
  have hn : ∀ x : Nat, x &&& 255 = x % 256 := fun x => by
    have h := Nat.and_pow_two_sub_one_eq_mod x 8
    norm_num at h
    exact h
  simp only [bytes4, mask_shift]
  simp only [Nat.shiftRight_eq_div_pow, hn, List.cons.injEq, and_true]
  norm_num
  refine ⟨by omega, by omega, by omega, by omega⟩

theorem roundtripA : ∀ (k : Nat) (bs : List Nat), bs.length = 8 * k → (∀ x ∈ bs, x < 256) →
    ∃ cs, blowcrypt_b64encode bs = some cs ∧ cs.length = 12 * k ∧
      blowcrypt_b64decode cs = some bs ∧ ∀ c ∈ cs, ∃ v, v < 64 ∧ c = chA v := by
  intro k
  induction k with
  | zero =>
    intro bs hlen _
    have hnil : bs = [] := List.eq_nil_of_length_eq_zero (by omega)
    subst hnil
    exact ⟨[], rfl, rfl, rfl, by simp⟩
  | succ n ih =>
    intro bs hlen hb
    obtain ⟨b0, b1, b2, b3, b4, b5, b6, b7, rest, rfl⟩ :
        ∃ b0 b1 b2 b3 b4 b5 b6 b7 rest,
          bs = b0 :: b1 :: b2 :: b3 :: b4 :: b5 :: b6 :: b7 :: rest := by
      rcases bs with _ | ⟨b0, bs⟩; · simp at hlen
      rcases bs with _ | ⟨b1, bs⟩; · simp at hlen; omega
      rcases bs with _ | ⟨b2, bs⟩; · simp at hlen; omega
      rcases bs with _ | ⟨b3, bs⟩; · simp at hlen; omega
      rcases bs with _ | ⟨b4, bs⟩; · simp at hlen; omega
      rcases bs with _ | ⟨b5, bs⟩; · simp at hlen; omega
      rcases bs with _ | ⟨b6, bs⟩; · simp at hlen; omega
      rcases bs with _ | ⟨b7, bs⟩; · simp at hlen; omega
      exact ⟨b0, b1, b2, b3, b4, b5, b6, b7, bs, rfl⟩
    have hrest : rest.length = 8 * n := by simp at hlen; omega
    have hbrest : ∀ x ∈ rest, x < 256 := fun x hx => hb x (by simp [hx])
    obtain ⟨cs', henc', hlen', hdec', hch'⟩ := ih rest hrest hbrest
    have hb0 : b0 < 256 := hb b0 (by simp)
    have hb1 : b1 < 256 := hb b1 (by simp)
    have hb2 : b2 < 256 := hb b2 (by simp)
    have hb3 : b3 < 256 := hb b3 (by simp)
    have hb4 : b4 < 256 := hb b4 (by simp)
    have hb5 : b5 < 256 := hb b5 (by simp)
    have hb6 : b6 < 256 := hb b6 (by simp)
    have hb7 : b7 < 256 := hb b7 (by simp)
    have hleft : ((b0 * 256 + b1) * 256 + b2) * 256 + b3 < 2 ^ 32 := by norm_num; omega
    have hright : ((b4 * 256 + b5) * 256 + b6) * 256 + b7 < 2 ^ 32 := by norm_num; omega
    refine ⟨encWordA (((b4 * 256 + b5) * 256 + b6) * 256 + b7) ++
      encWordA (((b0 * 256 + b1) * 256 + b2) * 256 + b3) ++ cs', ?_, ?_, ?_, ?_⟩
    · simp [blowcrypt_b64encode, henc']
    · simp [encWordA, hlen']
      omega
    · have hal := accumA_encWordA _ hleft
      have har := accumA_encWordA _ hright
      simp only [encWordA] at hal har
      simp only [encWordA, List.cons_append, List.nil_append, blowcrypt_b64decode,
        hal, har, Option.bind_some, Option.pure_def, Option.bind_eq_bind]
      simp [bytes4_word b0 b1 b2 b3 hb0 hb1 hb2 hb3, bytes4_word b4 b5 b6 b7 hb4 hb5 hb6 hb7,
        hdec']
    · intro c hc
      simp [encWordA] at hc
      rcases hc with h | h | h | h | h | h | h | h | h | h | h | h | h
      all_goals first
        | exact ⟨_, and63_lt _, h⟩
        | exact hch' c h

/-- C7: Wire Codec A is an exact inverse on 8-byte-aligned byte strings,
with each 8-byte chunk encoded as exactly 12 characters. -/
theorem c7_codecA_roundtrip (bs : List Nat) (hb : ∀ x ∈ bs, x < 256)
    (hlen : bs.length % 8 = 0) :
    ∃ cs, blowcrypt_b64encode bs = some cs ∧ cs.length = 12 * (bs.length / 8) ∧
      blowcrypt_b64decode cs = some bs := by
  obtain ⟨cs, h1, h2, h3, _⟩ := roundtripA (bs.length / 8) bs (by omega) hb
  exact ⟨cs, h1, h2, h3⟩

/-- Witness for C7 at the concrete 8-byte input `"01234567"`. -/
theorem c7_witness :
    ∃ cs, blowcrypt_b64encode [48, 49, 50, 51, 52, 53, 54, 55] = some cs ∧
      cs.length = 12 * ([48, 49, 50, 51, 52, 53, 54, 55].length / 8) ∧
      blowcrypt_b64decode cs = some [48, 49, 50, 51, 52, 53, 54, 55] :=
  c7_codecA_roundtrip [48, 49, 50, 51, 52, 53, 54, 55] (by decide) (by decide)

/-
## Big-endian integer conversion (C9)
-/

theorem bytes2int_append (xs : List Nat) (d : Nat) :
    bytes2int (xs ++ [d]) = bytes2int xs * 256 + d := by
  simp [bytes2int, List.foldl_append]

theorem int2bytesAux_roundtrip :
    ∀ fuel n, n < fuel → bytes2int (int2bytesAux fuel n) = n := by
  intro fuel
  induction fuel with
  | zero => intro n h; omega
  | succ f ih =>
    intro n h
    rw [int2bytesAux]
    by_cases h0 : n = 0
    · simp [h0, bytes2int]
    · rw [if_neg h0, bytes2int_append, ih (n / 256) ?_]
      · omega
      · have := Nat.div_lt_self (Nat.pos_of_ne_zero h0) (by norm_num : (1 : Nat) < 256)
        omega

theorem int2bytesAux_head :
    ∀ fuel n, n ≠ 0 → n < fuel → ∃ d ds, int2bytesAux fuel n = d :: ds ∧ d ≠ 0 := by
  intro fuel
  induction fuel with
  | zero => intro n _ h; omega
  | succ f ih =>
    intro n h0 h
    rw [int2bytesAux, if_neg h0]
    by_cases hq : n / 256 = 0
    · refine ⟨n % 256, [], ?_, ?_⟩
      · rw [hq]
        cases f <;> simp [int2bytesAux]
      · omega
    · have hlt : n / 256 < f := by
        have := Nat.div_lt_self (Nat.pos_of_ne_zero h0) (by norm_num : (1 : Nat) < 256)
        omega
      obtain ⟨d, ds, hds, hd⟩ := ih (n / 256) hq hlt
      exact ⟨d, ds ++ [n % 256], by rw [hds]; rfl, hd⟩

/-- C9: `bytes2int (int2bytes n) = n` for every `n`; `int2bytes` is never
empty; `0` encodes as `[0x00]`, and every positive integer encodes with a
non-zero leading byte. -/
theorem c9_int_bytes (n : Nat) :
    bytes2int (int2bytes n) = n ∧ int2bytes n ≠ [] ∧ int2bytes 0 = [0] ∧
      (int2bytes (n + 1)).head? ≠ some 0 := by
  refine ⟨?_, ?_, rfl, ?_⟩
  · rw [int2bytes]
    by_cases h0 : n = 0
    · simp [h0, bytes2int]
    · rw [if_neg h0]
      exact int2bytesAux_roundtrip (n + 1) n (by omega)
  · rw [int2bytes]
    by_cases h0 : n = 0
    · simp [h0]
    · rw [if_neg h0]
      obtain ⟨d, ds, hds, _⟩ := int2bytesAux_head (n + 1) n h0 (by omega)
      simp [hds]
  · rw [int2bytes, if_neg (by omega : ¬ n + 1 = 0)]
    obtain ⟨d, ds, hds, hd⟩ := int2bytesAux_head (n + 2) (n + 1) (by omega) (by omega)
    simp [hds, hd]

/-
## Decrypt-side post-processing (C5)
-/

theorem dropWhile_zeros_of_head (l : List Nat) (h : l.head? ≠ some 0) :
    l.dropWhile (· == 0) = l := by
  cases l with
  | nil => rfl
  | cons a t =>
    rw [List.dropWhile_cons, if_neg]
    simp only [List.head?_cons, ne_eq, Option.some.injEq] at h
    simp [h]

theorem dropWhile_zeros_replicate (k : Nat) (l : List Nat) :
    (List.replicate k 0 ++ l).dropWhile (· == 0) = l.dropWhile (· == 0) :=
  List.dropWhile_append_of_pos (fun a ha => by simp [List.eq_of_mem_replicate ha])

theorem stripReplace_both_ends (a k : Nat) (m : List Nat)
    (hh : m.head? ≠ some 0) (hl : m.getLast? ≠ some 0) :
    stripReplace (List.replicate a 0 ++ m ++ List.replicate k 0) =
      m.filter (· != 10) := by
  unfold stripReplace
  rw [List.append_assoc, dropWhile_zeros_replicate]
  cases m with
  | nil =>
    simp only [List.nil_append]
    rw [show (List.replicate k 0 : List Nat) = List.replicate k 0 ++ [] by simp,
      dropWhile_zeros_replicate]
    simp
  | cons b t =>
    rw [dropWhile_zeros_of_head (b :: t ++ List.replicate k 0) (by simpa using hh)]
    rw [List.reverse_append, List.reverse_replicate, dropWhile_zeros_replicate]
    rw [dropWhile_zeros_of_head (b :: t).reverse (by rw [List.head?_reverse]; exact hl)]
    simp

/-- C5 (amended): the post-processing removes the zero bytes at BOTH ends
(Python's `strip`) and every newline byte, leaving everything else
unchanged. -/
theorem c5_strip_both_ends (a k : Nat) (m : List Nat)
    (hh : m.head? ≠ some 0) (hl : m.getLast? ≠ some 0) :
    stripReplace (List.replicate a 0 ++ m ++ List.replicate k 0) =
      m.filter (· != 10) :=
  stripReplace_both_ends a k m hh hl

/-- C5 counterexample: the claim says leading zero bytes are left
unchanged, but the code's `strip(b'\x00')` removes them: on the decrypted
bytes `[0x00, 0x61]` the code yields `[0x61]`, not `[0x00, 0x61]`. -/
theorem c5_counterexample : stripReplace [0, 97] ≠ stripReplaceSpec [0, 97] := by decide

/-- Witness for C5 (amended) at `a = 2`, `k = 3`, `m = [0x61, 0x0a, 0x62]`. -/
theorem c5_witness :
    stripReplace (List.replicate 2 0 ++ [97, 10, 98] ++ List.replicate 3 0) =
      [97, 10, 98].filter (· != 10) :=
  c5_strip_both_ends 2 3 [97, 10, 98] (by decide) (by decide)

/-
## ECB pack/unpack round trip (C3)
-/

theorem padto_spec (m : List Nat) :
    ∃ j, padto (0 : Nat) m 8 = m ++ List.replicate j 0 ∧
      (m ++ List.replicate j 0).length % 8 = 0 := by
  by_cases h : m.length % 8 = 0
  · exact ⟨0, by simp [padto, h], by simpa using h⟩
  · refine ⟨8 - m.length % 8, by simp [padto, h], ?_⟩
    simp only [List.length_append, List.length_replicate]
    omega

theorem lstartsWith_append : ∀ (pre rest : List Char), lstartsWith pre (pre ++ rest) = true := by
  intro pre rest
  induction pre with
  | nil => rfl
  | cons p ps ih => simp [lstartsWith, ih]

theorem split1_OK (l : List Char) :
    split1 ('+' :: 'O' :: 'K' :: ' ' :: l) = some (['+', 'O', 'K'], l) := by
  simp [split1]

theorem stripReplace_padded (m : List Nat) (j : Nat)
    (h0 : ∀ x ∈ m, x ≠ 0) (h10 : ∀ x ∈ m, x ≠ 10) :
    stripReplace (m ++ List.replicate j 0) = m := by
  have hh : m.head? ≠ some 0 := by
    cases m with
    | nil => simp
    | cons a t => simpa using h0 a (by simp)
  have hl : m.getLast? ≠ some 0 := by
    intro heq
    exact h0 0 (List.mem_of_getLast?_eq_some heq) rfl
  have h := stripReplace_both_ends 0 j m hh hl
  simp only [List.replicate_zero, List.nil_append] at h
  rw [h, List.filter_eq_self.mpr]
  intro a ha
  simpa using h10 a ha

/-- C3 (amended): for any block cipher pair `(E, D)` that preserves length
and byte-range and inverts on 8-byte-aligned inputs (as pycryptodome's
Blowfish ECB does), packing any NON-EMPTY plaintext without NUL and newline
bytes and unpacking it again returns the plaintext exactly, and the packed
wire string starts with `"+OK "`. -/
theorem c3_ecb_roundtrip (E D : List Nat → List Nat)
    (hElen : ∀ bs, (E bs).length = bs.length)
    (hEbytes : ∀ bs, (∀ x ∈ bs, x < 256) → ∀ x ∈ E bs, x < 256)
    (hDE : ∀ bs, bs.length % 8 = 0 → D (E bs) = bs)
    (stdDec : List Char → Option (List Nat)) (cbcD : List Nat → List Nat → List Nat)
    (m : List Nat) (hm : ∀ x ∈ m, x < 256)
    (h0 : ∀ x ∈ m, x ≠ 0) (h10 : ∀ x ∈ m, x ≠ 10) (hne : m ≠ []) :
    ∃ wire, blowcrypt_pack m E none = some wire ∧
      lstartsWith "+OK ".toList wire = true ∧
      blowcrypt_unpack wire D stdDec cbcD = .ok m := by
  obtain ⟨j, hpad, hmod⟩ := padto_spec m
  have hmpb : ∀ x ∈ m ++ List.replicate j 0, x < 256 := by
    intro x hx
    rcases List.mem_append.mp hx with h | h
    · exact hm x h
    · simp [List.eq_of_mem_replicate h]
  have hEmod : (E (m ++ List.replicate j 0)).length % 8 = 0 := by rw [hElen]; exact hmod
  obtain ⟨cs, henc, hlen, hdec, hch⟩ :=
    roundtripA ((E (m ++ List.replicate j 0)).length / 8) (E (m ++ List.replicate j 0))
      (by omega) (hEbytes _ hmpb)
  have hmplen : 8 ≤ (m ++ List.replicate j 0).length := by
    have h1 : 1 ≤ (m ++ List.replicate j 0).length := by
      rcases m with _ | ⟨a, t⟩
      · exact absurd rfl hne
      · simp
    omega
  have hcs12 : cs.length = 12 * ((E (m ++ List.replicate j 0)).length / 8) := hlen
  have hEplen := hElen (m ++ List.replicate j 0)
  refine ⟨"+OK ".toList ++ cs, ?_, lstartsWith_append _ _, ?_⟩
  · unfold blowcrypt_pack
    rw [hpad, henc]
    rfl
  · have hstar : lstartsWith "*".toList cs = false := by
      cases cs with
      | nil => rfl
      | cons c cs' =>
        obtain ⟨v, hv, rfl⟩ := hch c (by simp)
        have hne' : ('*' : Char) ≠ chA v := (chA_ne_star v hv).symm
        simp [lstartsWith, hne']
    have heq : ("+OK ".toList ++ cs) = '+' :: 'O' :: 'K' :: ' ' :: cs := rfl
    have hp : lstartsWith ['+', 'O', 'K', ' '] ('+' :: 'O' :: 'K' :: ' ' :: cs) = true :=
      lstartsWith_append ['+', 'O', 'K', ' '] cs
    have hq : lstartsWith ['m', 'c', 'p', 's', ' '] ('+' :: 'O' :: 'K' :: ' ' :: cs) = false :=
      rfl
    have hstar' : lstartsWith ['*'] cs = false := hstar
    have hElen8 : 8 ≤ (E (m ++ List.replicate j 0)).length := by rw [hEplen]; exact hmplen
    have hk1 : 1 ≤ (E (m ++ List.replicate j 0)).length / 8 :=
      (Nat.one_le_div_iff (by norm_num)).mpr hElen8
    have h12 : ¬ cs.length < 12 := by rw [hcs12]; omega
    have hm12 : cs.length % 12 = 0 := by rw [hcs12]; omega
    have hEnil : ¬ E (m ++ List.replicate j 0) = [] := by
      intro hnil
      have h8 := hElen8
      rw [hnil] at h8
      simp at h8
    have hDE' : D (E (m ++ List.replicate j 0)) = m ++ List.replicate j 0 := hDE _ hmod
    have hstrip := stripReplace_padded m j h0 h10
    simp [blowcrypt_unpack, heq, hp, hq, split1_OK, hstar', h12, hm12, padto, hdec, hEnil,
      hDE', hstrip]

/-- C3 counterexample: the claim quantifies over EVERY plaintext without
NUL or newline bytes, but the empty plaintext packs to the bare `"+OK "`
(the identity cipher shown here is immaterial: no cipher call ever sees a
byte), whose payload is empty, and unpacking it fails instead of returning
the empty plaintext. -/
theorem c3_counterexample :
    blowcrypt_pack [] (fun bs => bs) none = some "+OK ".toList ∧
    blowcrypt_unpack "+OK ".toList (fun bs => bs) (fun _ => none) (fun _ c => c) =
      .error () := by
  constructor
  · rfl
  · rfl

/-- Witness for C3 (amended): the identity cipher with plaintext
`"hello world"`. -/
theorem c3_witness :
    ∃ wire, blowcrypt_pack [104, 101, 108, 108, 111, 32, 119, 111, 114, 108, 100]
        (fun bs => bs) none = some wire ∧
      lstartsWith "+OK ".toList wire = true ∧
      blowcrypt_unpack wire (fun bs => bs) (fun _ => none) (fun _ c => c) =
        .ok [104, 101, 108, 108, 111, 32, 119, 111, 114, 108, 100] :=
  c3_ecb_roundtrip (fun bs => bs) (fun bs => bs) (fun _ => rfl) (fun _ h => h)
    (fun _ _ => rfl) (fun _ => none) (fun _ c => c)
    [104, 101, 108, 108, 111, 32, 119, 111, 114, 108, 100]
    (by decide) (by decide) (by decide) (by decide)

/-
## dh1080_unpack never returns a falsy value (C10)
-/

theorem unpack_result (msg : List Char) (ctx : DH1080Ctx) :
    (dh1080_unpack msg ctx).2 = .error () ∨ (dh1080_unpack msg ctx).2 = .ok true := by
  unfold dh1080_unpack
  repeat' split
  all_goals try simp
  all_goals try split
  all_goals simp

/-- C10: whenever `dh1080_unpack` returns normally, the returned value is
`True`; every other exit raises.  Hence a caller branch treating a
non-raising call as failure is dead code. -/
theorem c10_unpack_true (msg : List Char) (ctx : DH1080Ctx) (b : Bool)
    (h : (dh1080_unpack msg ctx).2 = .ok b) : b = true := by
  rcases unpack_result msg ctx with he | ht
  · rw [h] at he
    cases he
  · have hb := h.symm.trans ht
    injection hb

/-- Witness for C10: a message with the `DH1080_` prefix and a context in
neither state falls through to `return True`. -/
theorem c10_witness :
    (dh1080_unpack "DH1080_X".toList ⟨4, 3, 0, 2, false⟩).2 = Except.ok true ∧ true = true :=
  ⟨rfl, c10_unpack_true "DH1080_X".toList ⟨4, 3, 0, 2, false⟩ true rfl⟩

/-
## Key generation (C4)
-/

/-- For any modulus `p ≥ 2` and odd exponent `q`, `(p-1)^q ≡ p-1 (mod p)`:
the element `p-1` (that is, `-1`) has order 2, so it fails the subgroup
check `value ^ q mod p == 1` whenever `q` is odd. -/
theorem pm1_pow_odd (p q : Nat) (hp : 2 ≤ p) (hq : q % 2 = 1) :
    (p - 1) ^ q % p = p - 1 := by
  obtain ⟨s, rfl⟩ : ∃ s, p = s + 2 := ⟨p - 2, by omega⟩
  have h1lt : 1 < s + 2 := by omega
  have hsq : (s + 1) ^ 2 % (s + 2) = 1 % (s + 2) := by
    have hh : (s + 1) ^ 2 = (s + 2) * s + 1 := by ring
    rw [hh, Nat.mul_add_mod]
  have hq2 : q = 2 * (q / 2) + 1 := by omega
  have hred : s + 2 - 1 = s + 1 := by omega
  rw [hred]
  calc (s + 1) ^ q % (s + 2)
      = ((s + 1) ^ 2) ^ (q / 2) * (s + 1) % (s + 2) := by
        rw [← pow_mul, ← pow_succ]
        rw [← hq2]
    _ = (((s + 1) ^ 2 % (s + 2)) ^ (q / 2) % (s + 2)) * ((s + 1) % (s + 2)) % (s + 2) := by
        rw [Nat.mul_mod, Nat.pow_mod]
    _ = ((1 % (s + 2)) ^ (q / 2) % (s + 2)) * ((s + 1) % (s + 2)) % (s + 2) := by
        rw [hsq]
    _ = (s + 1) % (s + 2) % (s + 2) := by
        rw [Nat.mod_eq_of_lt h1lt, one_pow, Nat.mod_eq_of_lt h1lt, one_mul]
    _ = s + 1 := by
        rw [Nat.mod_mod_of_dvd _ (dvd_refl _), Nat.mod_eq_of_lt (by omega)]

theorem validate_pm1_false :
    dh_validate_public (p_dh1080 - 1) q_dh1080 p_dh1080 = false := by
  unfold dh_validate_public
  rw [powMod_eq, pm1_pow_odd p_dh1080 q_dh1080 (by decide) (by decide)]
  decide

/-- The source's accept condition (`2 <= pub <= p - 1` plus subgroup check)
is equivalent to the spec's (`2 <= pub <= p - 2` plus subgroup check),
because `p - 1` always fails the subgroup check. -/
theorem accept_iff (pub : Nat) : dh1080_accept pub ↔
    (2 ≤ pub ∧ pub ≤ p_dh1080 - 2 ∧
      dh_validate_public pub q_dh1080 p_dh1080 = true) := by
  unfold dh1080_accept
  constructor
  · rintro ⟨h1, h2, h3⟩
    refine ⟨h1, ?_, h3⟩
    by_cases hpm : pub = p_dh1080 - 1
    · rw [hpm, validate_pm1_false] at h3
      cases h3
    · have hp2 : 2 < p_dh1080 := by decide
      omega
  · rintro ⟨h1, h2, h3⟩
    exact ⟨h1, by omega, h3⟩

/-- Shared concrete fact: the draw `priv = 2` is accepted (`pub = 4`). -/
theorem accept_two : dh1080_accept (powMod g_dh1080 2 p_dh1080) := by decide

/-- C4: every key pair produced by the sampling loop satisfies
`pub = g ^ priv mod p`, `2 ≤ pub ≤ p - 2` and the subgroup check; a sampled
candidate violating these conditions is skipped, never returned. -/
theorem c4_keygen_valid :
    (∀ samples priv pub, dh1080_keygen samples = some (priv, pub) →
      pub = powMod g_dh1080 priv p_dh1080 ∧ 2 ≤ pub ∧ pub ≤ p_dh1080 - 2 ∧
        dh_validate_public pub q_dh1080 p_dh1080 = true) ∧
    (∀ sample rest, ¬ (2 ≤ powMod g_dh1080 (bytes2int sample) p_dh1080 ∧
        powMod g_dh1080 (bytes2int sample) p_dh1080 ≤ p_dh1080 - 2 ∧
        dh_validate_public (powMod g_dh1080 (bytes2int sample) p_dh1080) q_dh1080 p_dh1080
          = true) →
      dh1080_keygen (sample :: rest) = dh1080_keygen rest) := by
  constructor
  · intro samples
    induction samples with
    | nil => intro priv pub h; cases h
    | cons sample rest ih =>
      intro priv pub h
      simp only [dh1080_keygen] at h
      split at h
      · rename_i hacc
        injection h with h'
        injection h' with h1 h2
        subst h1
        subst h2
        obtain ⟨g1, g2, g3⟩ := (accept_iff _).mp hacc
        exact ⟨rfl, g1, g2, g3⟩
      · exact ih priv pub h
  · intro sample rest hviol
    simp only [dh1080_keygen]
    split
    · rename_i hacc
      exact absurd ((accept_iff _).mp hacc) hviol
    · rfl

/-- Witness for C4: from the random draw `[0x02]` the loop returns the
pair `(2, 4)`, which satisfies all the stated conditions. -/
theorem c4_witness :
    4 = powMod g_dh1080 2 p_dh1080 ∧ 2 ≤ 4 ∧ 4 ≤ p_dh1080 - 2 ∧
      dh_validate_public 4 q_dh1080 p_dh1080 = true :=
  c4_keygen_valid.1 [[2]] 2 4 (by decide)

/-
## Inbound DH1080 validation (C1)
-/

theorem pySplitSp_init (tok : List Char) :
    pySplitSp ("DH1080_INIT ".toList ++ tok) = "DH1080_INIT".toList :: pySplitSp tok := by
  simp [pySplitSp]

theorem pySplitSp_initcbc (tok : List Char) :
    pySplitSp ("DH1080_INIT_CBC ".toList ++ tok) =
      "DH1080_INIT_CBC".toList :: pySplitSp tok := by
  simp [pySplitSp]

theorem pySplitSp_finish (tok : List Char) :
    pySplitSp ("DH1080_FINISH ".toList ++ tok) =
      "DH1080_FINISH".toList :: pySplitSp tok := by
  simp [pySplitSp]

/-- C1 (amended): on every well-formed inbound message — `DH1080_INIT` or
`DH1080_INIT_CBC` in state 0, `DH1080_FINISH` in state 1, each with an
arbitrary token tail — `dh1080_unpack` succeeds exactly when the
Wire-Codec-B-decoded value `v` satisfies `1 < v < p`: `v = p - 1` is
ACCEPTED and no subgroup check is ever performed inbound, and it derives
`secret = v ^ private mod p` for every such `v`; on a failing range check
it raises, in state 0 after having already set `state = 1`. -/
theorem c1_unpack_range_only (ctx : DH1080Ctx) (tail tok : List Char)
    (rest : List (List Char)) (bs : List Nat)
    (hsp : pySplitSp tail = tok :: rest)
    (hdec : dh1080_b64decode tok = .ok bs) :
    (ctx.state = 0 →
      dh1080_unpack ("DH1080_INIT ".toList ++ tail) ctx =
        (if 1 < bytes2int bs ∧ bytes2int bs < p_dh1080 then
          ({ ctx with
              state := 1,
              secret := powMod (bytes2int bs) ctx.priv p_dh1080,
              cbc := rest.contains "CBC".toList }, .ok true)
        else ({ ctx with state := 1 }, .error ()))) ∧
    (ctx.state = 0 →
      dh1080_unpack ("DH1080_INIT_CBC ".toList ++ tail) ctx =
        (if 1 < bytes2int bs ∧ bytes2int bs < p_dh1080 then
          ({ ctx with
              state := 1,
              secret := powMod (bytes2int bs) ctx.priv p_dh1080,
              cbc := true }, .ok true)
        else ({ ctx with state := 1 }, .error ()))) ∧
    (ctx.state = 1 →
      dh1080_unpack ("DH1080_FINISH ".toList ++ tail) ctx =
        (if 1 < bytes2int bs ∧ bytes2int bs < p_dh1080 then
          ({ ctx with
              secret := powMod (bytes2int bs) ctx.priv p_dh1080,
              cbc := rest.contains "CBC".toList }, .ok true)
        else (ctx, .error ()))) := by
  refine ⟨?_, ?_, ?_⟩
  · intro hstate
    have hpre : lstartsWith ['D', 'H', '1', '0', '8', '0', '_']
        ('D' :: 'H' :: '1' :: '0' :: '8' :: '0' :: '_' :: 'I' :: 'N' :: 'I' :: 'T' :: ' '
          :: tail) = true :=
      lstartsWith_append ['D', 'H', '1', '0', '8', '0', '_']
        ('I' :: 'N' :: 'I' :: 'T' :: ' ' :: tail)
    have hinit : lstartsWith ['D', 'H', '1', '0', '8', '0', '_', 'I', 'N', 'I', 'T', ' ']
        ('D' :: 'H' :: '1' :: '0' :: '8' :: '0' :: '_' :: 'I' :: 'N' :: 'I' :: 'T' :: ' '
          :: tail) = true :=
      lstartsWith_append ['D', 'H', '1', '0', '8', '0', '_', 'I', 'N', 'I', 'T', ' '] tail
    have hsplit : pySplitSp
        ('D' :: 'H' :: '1' :: '0' :: '8' :: '0' :: '_' :: 'I' :: 'N' :: 'I' :: 'T' :: ' '
          :: tail)
        = ['D', 'H', '1', '0', '8', '0', '_', 'I', 'N', 'I', 'T'] :: tok :: rest := by
      rw [show ('D' :: 'H' :: '1' :: '0' :: '8' :: '0' :: '_' :: 'I' :: 'N' :: 'I' :: 'T' :: ' '
          :: tail) = "DH1080_INIT ".toList ++ tail from rfl, pySplitSp_init, hsp]
      rfl
    have hcmd : (['D', 'H', '1', '0', '8', '0', '_', 'I', 'N', 'I', 'T'] ==
        ['D', 'H', '1', '0', '8', '0', '_', 'I', 'N', 'I', 'T', '_', 'C', 'B', 'C']) = false := by
      decide
    by_cases hv : 1 < bytes2int bs ∧ bytes2int bs < p_dh1080
    · simp [dh1080_unpack, hpre, hstate, hinit, hsplit, hdec, hcmd, hv]
    · simp [dh1080_unpack, hpre, hstate, hinit, hsplit, hdec, hcmd, hv]
  · intro hstate
    have hpre : lstartsWith ['D', 'H', '1', '0', '8', '0', '_']
        ('D' :: 'H' :: '1' :: '0' :: '8' :: '0' :: '_' :: 'I' :: 'N' :: 'I' :: 'T' :: '_'
          :: 'C' :: 'B' :: 'C' :: ' ' :: tail) = true :=
      lstartsWith_append ['D', 'H', '1', '0', '8', '0', '_']
        ('I' :: 'N' :: 'I' :: 'T' :: '_' :: 'C' :: 'B' :: 'C' :: ' ' :: tail)
    have hinitf : lstartsWith ['D', 'H', '1', '0', '8', '0', '_', 'I', 'N', 'I', 'T', ' ']
        ('D' :: 'H' :: '1' :: '0' :: '8' :: '0' :: '_' :: 'I' :: 'N' :: 'I' :: 'T' :: '_'
          :: 'C' :: 'B' :: 'C' :: ' ' :: tail) = false := rfl
    have hinitcbc : lstartsWith
        ['D', 'H', '1', '0', '8', '0', '_', 'I', 'N', 'I', 'T', '_', 'C', 'B', 'C', ' ']
        ('D' :: 'H' :: '1' :: '0' :: '8' :: '0' :: '_' :: 'I' :: 'N' :: 'I' :: 'T' :: '_'
          :: 'C' :: 'B' :: 'C' :: ' ' :: tail) = true :=
      lstartsWith_append
        ['D', 'H', '1', '0', '8', '0', '_', 'I', 'N', 'I', 'T', '_', 'C', 'B', 'C', ' '] tail
    have hsplit : pySplitSp
        ('D' :: 'H' :: '1' :: '0' :: '8' :: '0' :: '_' :: 'I' :: 'N' :: 'I' :: 'T' :: '_'
          :: 'C' :: 'B' :: 'C' :: ' ' :: tail)
        = ['D', 'H', '1', '0', '8', '0', '_', 'I', 'N', 'I', 'T', '_', 'C', 'B', 'C']
          :: tok :: rest := by
      rw [show ('D' :: 'H' :: '1' :: '0' :: '8' :: '0' :: '_' :: 'I' :: 'N' :: 'I' :: 'T' :: '_'
          :: 'C' :: 'B' :: 'C' :: ' ' :: tail) = "DH1080_INIT_CBC ".toList ++ tail from rfl,
        pySplitSp_initcbc, hsp]
      rfl
    have hcmd : (['D', 'H', '1', '0', '8', '0', '_', 'I', 'N', 'I', 'T', '_', 'C', 'B', 'C'] ==
        ['D', 'H', '1', '0', '8', '0', '_', 'I', 'N', 'I', 'T', '_', 'C', 'B', 'C']) = true := by
      decide
    by_cases hv : 1 < bytes2int bs ∧ bytes2int bs < p_dh1080
    · simp [dh1080_unpack, hpre, hstate, hinitf, hinitcbc, hsplit, hdec, hcmd, hv]
    · simp [dh1080_unpack, hpre, hstate, hinitf, hinitcbc, hsplit, hdec, hcmd, hv]
  · intro hstate
    have hpre : lstartsWith ['D', 'H', '1', '0', '8', '0', '_']
        ('D' :: 'H' :: '1' :: '0' :: '8' :: '0' :: '_' :: 'F' :: 'I' :: 'N' :: 'I' :: 'S'
          :: 'H' :: ' ' :: tail) = true :=
      lstartsWith_append ['D', 'H', '1', '0', '8', '0', '_']
        ('F' :: 'I' :: 'N' :: 'I' :: 'S' :: 'H' :: ' ' :: tail)
    have hfin : lstartsWith ['D', 'H', '1', '0', '8', '0', '_', 'F', 'I', 'N', 'I', 'S', 'H', ' ']
        ('D' :: 'H' :: '1' :: '0' :: '8' :: '0' :: '_' :: 'F' :: 'I' :: 'N' :: 'I' :: 'S'
          :: 'H' :: ' ' :: tail) = true :=
      lstartsWith_append
        ['D', 'H', '1', '0', '8', '0', '_', 'F', 'I', 'N', 'I', 'S', 'H', ' '] tail
    have hsplit : pySplitSp
        ('D' :: 'H' :: '1' :: '0' :: '8' :: '0' :: '_' :: 'F' :: 'I' :: 'N' :: 'I' :: 'S'
          :: 'H' :: ' ' :: tail)
        = ['D', 'H', '1', '0', '8', '0', '_', 'F', 'I', 'N', 'I', 'S', 'H'] :: tok :: rest := by
      rw [show ('D' :: 'H' :: '1' :: '0' :: '8' :: '0' :: '_' :: 'F' :: 'I' :: 'N' :: 'I' :: 'S'
          :: 'H' :: ' ' :: tail) = "DH1080_FINISH ".toList ++ tail from rfl,
        pySplitSp_finish, hsp]
      rfl
    by_cases hv : 1 < bytes2int bs ∧ bytes2int bs < p_dh1080
    · simp [dh1080_unpack, hpre, hstate, hfin, hsplit, hdec, hv]
    · simp [dh1080_unpack, hpre, hstate, hfin, hsplit, hdec, hv]

/-- C1 counterexample: the claim (failure whenever the decoded value is
not strictly between 1 and `p - 1`, or fails the subgroup check) is false:
the message carrying the public value `p - 1` — which is NOT below
`p - 1` and fails the subgroup check — is accepted, and a secret is
derived from it. -/
theorem c1_counterexample :
    ¬ (∀ (ctx : DH1080Ctx) (msg : List Char) (v : Nat),
        decodedPublic msg = some v →
        (¬ (1 < v ∧ v < p_dh1080 - 1) ∨
          dh_validate_public v q_dh1080 p_dh1080 = false) →
        (dh1080_unpack msg ctx).2 = .error ()) := by
  intro hclaim
  have hdec : decodedPublic msgPm1 = some (p_dh1080 - 1) := by rfl
  have hok : (dh1080_unpack msgPm1 ⟨4, 3, 0, 0, false⟩).2 = .ok true := by rfl
  have herr := hclaim ⟨4, 3, 0, 0, false⟩ msgPm1 (p_dh1080 - 1) hdec
    (Or.inl (fun hvv => absurd hvv.2 (lt_irrefl _)))
  rw [hok] at herr
  exact Except.noConfusion herr

/-- Witness for C1 (amended): a state-1 context receiving
`DH1080_FINISH /w CBC` — the token `"/w"` decodes to `v = 255`, which
passes `1 < v < p`, so unpack succeeds, derives `255 ^ 3 mod p` and sets
the CBC flag from the trailing token. -/
theorem c1_witness :
    dh1080_unpack ("DH1080_FINISH ".toList ++ "/w CBC".toList) ⟨4, 3, 0, 1, false⟩ =
      (if 1 < bytes2int [255] ∧ bytes2int [255] < p_dh1080 then
        ({ (⟨4, 3, 0, 1, false⟩ : DH1080Ctx) with
            secret := powMod (bytes2int [255]) (DH1080Ctx.priv ⟨4, 3, 0, 1, false⟩) p_dh1080,
            cbc := true }, .ok true)
      else ((⟨4, 3, 0, 1, false⟩ : DH1080Ctx), .error ())) :=
  (c1_unpack_range_only ⟨4, 3, 0, 1, false⟩ "/w CBC".toList "/w".toList ["CBC".toList]
    [255] rfl rfl).2.2 rfl

/-
## Exchange-context state machine invariant (C2)
-/

theorem state_mono_pack (ctx : DH1080Ctx) : ctx.state ≤ (dh1080_pack ctx).1.state := by
  unfold dh1080_pack
  split
  all_goals simp_all

theorem state_mono_unpack (msg : List Char) (ctx : DH1080Ctx) :
    ctx.state ≤ (dh1080_unpack msg ctx).1.state := by
  unfold dh1080_unpack
  repeat' split
  all_goals try simp_all
  all_goals try split
  all_goals simp_all

theorem pack_state_keep (ctx : DH1080Ctx) (h : ctx.state = 1) :
    (dh1080_pack ctx).1.state = 1 := by
  unfold dh1080_pack
  split
  all_goals simp_all

theorem unpack_state_keep (msg : List Char) (ctx : DH1080Ctx) (h : ctx.state = 1) :
    (dh1080_unpack msg ctx).1.state = 1 := by
  unfold dh1080_unpack
  repeat' split
  all_goals try simp_all
  all_goals try split
  all_goals simp_all

theorem pack_preserves (ctx : DH1080Ctx) (h1 : ctx.secret ≠ 0 → ctx.state = 1)
    (h2 : ctx.state ≤ 1) :
    ((dh1080_pack ctx).1.secret ≠ 0 → (dh1080_pack ctx).1.state = 1) ∧
      (dh1080_pack ctx).1.state ≤ 1 := by
  unfold dh1080_pack
  split
  all_goals simp_all

theorem unpack_preserves (msg : List Char) (ctx : DH1080Ctx)
    (h1 : ctx.secret ≠ 0 → ctx.state = 1) (h2 : ctx.state ≤ 1) :
    ((dh1080_unpack msg ctx).1.secret ≠ 0 → (dh1080_unpack msg ctx).1.state = 1) ∧
      (dh1080_unpack msg ctx).1.state ≤ 1 := by
  unfold dh1080_unpack
  repeat' split
  all_goals try simp_all
  all_goals try split
  all_goals simp_all

/-- C2 (amended): on every reachable context the state only moves upward
from 0 to 1 and then stays there (so the transition happens at most once,
and exactly once in any run that packs or successfully unpacks), and a
non-zero secret implies state 1.  The CONVERSE fails — see the
counterexample: packing the initial `DH1080_INIT` moves the state to 1
while the secret is still 0. -/
theorem c2_state_secret (ctx : DH1080Ctx) (hr : Reach ctx) :
    (ctx.secret ≠ 0 → ctx.state = 1) ∧ ctx.state ≤ 1 ∧
      ctx.state ≤ (dh1080_pack ctx).1.state ∧
      (∀ msg, ctx.state ≤ (dh1080_unpack msg ctx).1.state) ∧
      (ctx.state = 1 → (dh1080_pack ctx).1.state = 1 ∧
        ∀ msg, (dh1080_unpack msg ctx).1.state = 1) := by
  have core : (ctx.secret ≠ 0 → ctx.state = 1) ∧ ctx.state ≤ 1 := by
    induction hr with
    | init priv cbc hacc => simp
    | pack hr ih => exact pack_preserves _ ih.1 ih.2
    | unpack msg hr ih => exact unpack_preserves msg _ ih.1 ih.2
  exact ⟨core.1, core.2, state_mono_pack ctx, fun msg => state_mono_unpack msg ctx,
    fun h1 => ⟨pack_state_keep ctx h1, fun msg => unpack_state_keep msg ctx h1⟩⟩

/-- C2 counterexample: "secret is non-zero iff state = COMPLETE" fails on
the code: a freshly constructed context that has just packed its
`DH1080_INIT` (a reachable state) has `state = 1` with `secret = 0`. -/
theorem c2_counterexample :
    ¬ (∀ ctx : DH1080Ctx, Reach ctx → (ctx.secret ≠ 0 ↔ ctx.state = 1)) := by
  intro hclaim
  have hreach : Reach (dh1080_pack ⟨powMod g_dh1080 2 p_dh1080, 2, 0, 0, false⟩).1 :=
    Reach.pack (Reach.init 2 false accept_two)
  have h := hclaim _ hreach
  rw [show (dh1080_pack ⟨powMod g_dh1080 2 p_dh1080, 2, 0, 0, false⟩).1 =
      ⟨powMod g_dh1080 2 p_dh1080, 2, 0, 1, false⟩ from rfl] at h
  simp at h

/-- Witness for C2 (amended) at a freshly constructed context. -/
theorem c2_witness :
    ((⟨powMod g_dh1080 2 p_dh1080, 2, 0, 0, false⟩ : DH1080Ctx).secret ≠ 0 →
        (⟨powMod g_dh1080 2 p_dh1080, 2, 0, 0, false⟩ : DH1080Ctx).state = 1) ∧
      (⟨powMod g_dh1080 2 p_dh1080, 2, 0, 0, false⟩ : DH1080Ctx).state ≤ 1 ∧
      (⟨powMod g_dh1080 2 p_dh1080, 2, 0, 0, false⟩ : DH1080Ctx).state ≤
        (dh1080_pack ⟨powMod g_dh1080 2 p_dh1080, 2, 0, 0, false⟩).1.state ∧
      (∀ msg, (⟨powMod g_dh1080 2 p_dh1080, 2, 0, 0, false⟩ : DH1080Ctx).state ≤
        (dh1080_unpack msg ⟨powMod g_dh1080 2 p_dh1080, 2, 0, 0, false⟩).1.state) ∧
      ((⟨powMod g_dh1080 2 p_dh1080, 2, 0, 0, false⟩ : DH1080Ctx).state = 1 →
        (dh1080_pack ⟨powMod g_dh1080 2 p_dh1080, 2, 0, 0, false⟩).1.state = 1 ∧
        ∀ msg, (dh1080_unpack msg ⟨powMod g_dh1080 2 p_dh1080, 2, 0, 0, false⟩).1.state = 1) :=
  c2_state_secret ⟨powMod g_dh1080 2 p_dh1080, 2, 0, 0, false⟩ (Reach.init 2 false accept_two)

/-
## ECB-form unpack error handling and truncation (C6)
-/

theorem cons12 (l : List Char) (h : 12 ≤ l.length) :
    ∃ c0 c1 c2 c3 c4 c5 c6 c7 c8 c9 c10 c11 t,
      l = c0 :: c1 :: c2 :: c3 :: c4 :: c5 :: c6 :: c7 :: c8 :: c9 :: c10 :: c11 :: t := by
  rcases l with _ | ⟨c0, l⟩; · simp at h
  rcases l with _ | ⟨c1, l⟩; · simp at h
  rcases l with _ | ⟨c2, l⟩; · simp at h
  rcases l with _ | ⟨c3, l⟩; · simp at h
  rcases l with _ | ⟨c4, l⟩; · simp at h
  rcases l with _ | ⟨c5, l⟩; · simp at h
  rcases l with _ | ⟨c6, l⟩; · simp at h
  rcases l with _ | ⟨c7, l⟩; · simp at h
  rcases l with _ | ⟨c8, l⟩; · simp at h
  rcases l with _ | ⟨c9, l⟩; · simp at h
  rcases l with _ | ⟨c10, l⟩; · simp at h
  rcases l with _ | ⟨c11, l⟩; · simp at h
  exact ⟨c0, c1, c2, c3, c4, c5, c6, c7, c8, c9, c10, c11, l, rfl⟩

theorem decodeA_twelve_ne_nil (cs : List Char) (h12 : 12 ≤ cs.length) (raw : List Nat)
    (hdec : blowcrypt_b64decode cs = some raw) : raw ≠ [] := by
  obtain ⟨c0, c1, c2, c3, c4, c5, c6, c7, c8, c9, c10, c11, t, rfl⟩ := cons12 cs h12
  simp only [blowcrypt_b64decode, Option.bind_eq_bind, Option.pure_def] at hdec
  rcases h1 : accumA [c0, c1, c2, c3, c4, c5] with _ | right
  · rw [h1] at hdec; simp at hdec
  rcases h2 : accumA [c6, c7, c8, c9, c10, c11] with _ | left
  · rw [h1, h2] at hdec; simp at hdec
  rcases h3 : blowcrypt_b64decode t with _ | tail
  · rw [h1, h2, h3] at hdec; simp at hdec
  rw [h1, h2, h3] at hdec
  have hraw : raw = bytes4 left ++ bytes4 right ++ tail := by
    simpa using hdec.symm
  rw [hraw]
  simp [bytes4]

theorem split1_mcps (l : List Char) :
    split1 ('m' :: 'c' :: 'p' :: 's' :: ' ' :: l) = some (['m', 'c', 'p', 's'], l) := by
  simp [split1]

/-- The `"+OK "` instance of the C6 behaviour: unpack of
`"+OK " ++ payload` (payload not starting with `"*"`) fails when the
payload is shorter than 12 characters, OR when the truncated payload fails
Wire-Codec-A decoding; a payload of at least 12 characters is silently
truncated to the nearest lower multiple of 12 first, and if that
truncation decodes, unpack succeeds with the decrypted, post-processed
bytes. -/
theorem ecb_malformed_ok (D : List Nat → List Nat) (stdDec : List Char → Option (List Nat))
    (cbcD : List Nat → List Nat → List Nat) (payload : List Char)
    (hstar : lstartsWith ['*'] payload = false) :
    (payload.length < 12 →
      blowcrypt_unpack ("+OK ".toList ++ payload) D stdDec cbcD = .error ()) ∧
    (∀ raw, 12 ≤ payload.length →
      blowcrypt_b64decode (payload.take (payload.length - payload.length % 12)) = some raw →
      blowcrypt_unpack ("+OK ".toList ++ payload) D stdDec cbcD =
        .ok (stripReplace (D raw))) ∧
    (12 ≤ payload.length →
      blowcrypt_b64decode (payload.take (payload.length - payload.length % 12)) = none →
      blowcrypt_unpack ("+OK ".toList ++ payload) D stdDec cbcD = .error ()) := by
  have heq : ("+OK ".toList ++ payload) = '+' :: 'O' :: 'K' :: ' ' :: payload := rfl
  have hp : lstartsWith ['+', 'O', 'K', ' '] ('+' :: 'O' :: 'K' :: ' ' :: payload) = true :=
    lstartsWith_append ['+', 'O', 'K', ' '] payload
  refine ⟨?_, ?_, ?_⟩
  · intro hshort
    simp [blowcrypt_unpack, heq, hp, split1_OK, hstar, hshort]
  · intro raw hlong hdec
    by_cases hmod : payload.length % 12 = 0
    · have htr : payload.take (payload.length - payload.length % 12) = payload := by
        rw [hmod]
        simp
      rw [htr] at hdec
      have hne := decodeA_twelve_ne_nil payload hlong raw hdec
      simp [blowcrypt_unpack, heq, hp, split1_OK, hstar, show ¬ payload.length < 12 by omega,
        hmod, padto, hdec, hne]
    · have hlen12 : 12 ≤ payload.length - payload.length % 12 := by omega
      have htrlen : (payload.take (payload.length - payload.length % 12)).length =
          payload.length - payload.length % 12 := by
        rw [List.length_take]
        omega
      have hne := decodeA_twelve_ne_nil _ (by omega) raw hdec
      have htrmod : (payload.take (payload.length - payload.length % 12)).length % 12 = 0 := by
        rw [htrlen]
        omega
      have hsub : (payload.length - payload.length % 12) % 12 = 0 := by omega
      simp [blowcrypt_unpack, heq, hp, split1_OK, hstar, show ¬ payload.length < 12 by omega,
        hmod, padto, htrmod, hsub, hdec, hne]
  · intro hlong hdec
    by_cases hmod : payload.length % 12 = 0
    · have htr : payload.take (payload.length - payload.length % 12) = payload := by
        rw [hmod]
        simp
      rw [htr] at hdec
      simp [blowcrypt_unpack, heq, hp, split1_OK, hstar, show ¬ payload.length < 12 by omega,
        hmod, padto, hdec]
    · have htrlen : (payload.take (payload.length - payload.length % 12)).length =
          payload.length - payload.length % 12 := by
        rw [List.length_take]
        omega
      have htrmod : (payload.take (payload.length - payload.length % 12)).length % 12 = 0 := by
        rw [htrlen]
        omega
      have hsub : (payload.length - payload.length % 12) % 12 = 0 := by omega
      simp [blowcrypt_unpack, heq, hp, split1_OK, hstar, show ¬ payload.length < 12 by omega,
        hmod, padto, htrmod, hsub, hdec]

/-- An `"mcps "`-prefixed message takes exactly the same path through
`blowcrypt_unpack` as the same payload behind `"+OK "`: the prefix check
passes either way and `split(' ', 1)` discards the prefix word. -/
theorem unpack_mcps_ok (D : List Nat → List Nat) (stdDec : List Char → Option (List Nat))
    (cbcD : List Nat → List Nat → List Nat) (payload : List Char) :
    blowcrypt_unpack ("mcps ".toList ++ payload) D stdDec cbcD =
      blowcrypt_unpack ("+OK ".toList ++ payload) D stdDec cbcD := by
  have e1 : split1 ('m' :: 'c' :: 'p' :: 's' :: ' ' :: payload) =
      some (['m', 'c', 'p', 's'], payload) := split1_mcps payload
  have e2 : split1 ('+' :: 'O' :: 'K' :: ' ' :: payload) =
      some (['+', 'O', 'K'], payload) := split1_OK payload
  have p1 : lstartsWith ['m', 'c', 'p', 's', ' ']
      ('m' :: 'c' :: 'p' :: 's' :: ' ' :: payload) = true :=
    lstartsWith_append ['m', 'c', 'p', 's', ' '] payload
  have p2 : lstartsWith ['+', 'O', 'K', ' '] ('+' :: 'O' :: 'K' :: ' ' :: payload) = true :=
    lstartsWith_append ['+', 'O', 'K', ' '] payload
  have q1 : lstartsWith ['+', 'O', 'K', ' ']
      ('m' :: 'c' :: 'p' :: 's' :: ' ' :: payload) = false := rfl
  simp [blowcrypt_unpack, e1, e2, p1, p2, q1]

/-- C6 (amended): for every ECB-form message — behind either valid prefix,
`"+OK "` or `"mcps "` — unpack fails with `MalformedMessage` when the
payload is shorter than 12 characters; a payload of length at least 12 is
first silently truncated down to the nearest lower multiple of 12, and
unpack then succeeds or fails with the Wire-Codec-A decode of that
truncation (so a 12-or-longer payload still fails when the truncated
payload does not decode). -/
theorem c6_ecb_malformed (D : List Nat → List Nat) (stdDec : List Char → Option (List Nat))
    (cbcD : List Nat → List Nat → List Nat) (pre payload : List Char)
    (hpre : pre = "+OK ".toList ∨ pre = "mcps ".toList)
    (hstar : lstartsWith ['*'] payload = false) :
    (payload.length < 12 →
      blowcrypt_unpack (pre ++ payload) D stdDec cbcD = .error ()) ∧
    (∀ raw, 12 ≤ payload.length →
      blowcrypt_b64decode (payload.take (payload.length - payload.length % 12)) = some raw →
      blowcrypt_unpack (pre ++ payload) D stdDec cbcD = .ok (stripReplace (D raw))) ∧
    (12 ≤ payload.length →
      blowcrypt_b64decode (payload.take (payload.length - payload.length % 12)) = none →
      blowcrypt_unpack (pre ++ payload) D stdDec cbcD = .error ()) := by
  obtain ⟨h1, h2, h3⟩ := ecb_malformed_ok D stdDec cbcD payload hstar
  rcases hpre with rfl | rfl
  · exact ⟨h1, h2, h3⟩
  · refine ⟨?_, ?_, ?_⟩
    · intro hs
      rw [unpack_mcps_ok]
      exact h1 hs
    · intro raw hl hd
      rw [unpack_mcps_ok]
      exact h2 raw hl hd
    · intro hl hd
      rw [unpack_mcps_ok]
      exact h3 hl hd

/-- C6 counterexample: the claim's "fails iff payload shorter than 12" is
false: the 12-character payload `"!!!!!!!!!!!!"` is not shorter than 12,
yet unpack fails (`'!'` is outside the blowcrypt alphabet, so
`B64.index` raises). -/
theorem c6_counterexample :
    ("!!!!!!!!!!!!".toList.length < 12 → False) ∧
    blowcrypt_unpack "+OK !!!!!!!!!!!!".toList (fun bs => bs) (fun _ => none)
      (fun _ c => c) = .error () := by
  constructor
  · intro h
    simp at h
  · rfl

/-- Witness for C6 (amended): behind the `"mcps "` prefix, a 13-character
all-`'.'` payload is truncated to 12 characters, which decode to eight
zero bytes. -/
theorem c6_witness :
    blowcrypt_unpack ("mcps ".toList ++ ".............".toList) (fun bs => bs)
        (fun _ => none) (fun _ c => c) =
      .ok (stripReplace ((fun (bs : List Nat) => bs) [0, 0, 0, 0, 0, 0, 0, 0])) :=
  (c6_ecb_malformed (fun bs => bs) (fun _ => none) (fun _ c => c) "mcps ".toList
    ".............".toList (Or.inr rfl) rfl).2.1 [0, 0, 0, 0, 0, 0, 0, 0]
    (by decide) (by decide)

/-
## Wire Codec B round trip up to trailing-zero trimming (C8)
-/

theorem gv_hi6 : ∀ b : Nat, b < 256 →
    groupVal [b.testBit 7, b.testBit 6, b.testBit 5, b.testBit 4, b.testBit 3, b.testBit 2]
      = b / 4 := by decide

theorem gv_lo2 : ∀ b : Nat, b < 256 →
    groupVal [b.testBit 1, b.testBit 0] = b % 4 := by decide

theorem gv_hi4 : ∀ b : Nat, b < 256 →
    groupVal [b.testBit 7, b.testBit 6, b.testBit 5, b.testBit 4] = b / 16 := by decide

theorem gv_lo4 : ∀ b : Nat, b < 256 →
    groupVal [b.testBit 3, b.testBit 2, b.testBit 1, b.testBit 0] = b % 16 := by decide

theorem gv_hi2 : ∀ b : Nat, b < 256 →
    groupVal [b.testBit 7, b.testBit 6] = b / 64 := by decide

theorem gv_lo6 : ∀ b : Nat, b < 256 →
    groupVal [b.testBit 5, b.testBit 4, b.testBit 3, b.testBit 2, b.testBit 1, b.testBit 0]
      = b % 64 := by decide

theorem groupVal_foldl (ys : List Bool) : ∀ a : Nat,
    ys.foldl (fun t b => t * 2 + (if b then 1 else 0)) a =
      a * 2 ^ ys.length + ys.foldl (fun t b => t * 2 + (if b then 1 else 0)) 0 := by
  induction ys with
  | nil => intro a; simp
  | cons y ys ih =>
    intro a
    simp only [List.foldl_cons, List.length_cons]
    rw [ih (a * 2 + (if y then 1 else 0)), ih ((0 : Nat) * 2 + (if y then 1 else 0))]
    rw [pow_succ]
    ring

theorem groupVal_append (xs ys : List Bool) :
    groupVal (xs ++ ys) = groupVal xs * 2 ^ ys.length + groupVal ys := by
  unfold groupVal
  rw [List.foldl_append, groupVal_foldl]

theorem gv_lo2_hi4 (b c : Nat) (hb : b < 256) (hc : c < 256) :
    groupVal [b.testBit 1, b.testBit 0, c.testBit 7, c.testBit 6, c.testBit 5, c.testBit 4]
      = b % 4 * 16 + c / 16 := by
  have h := groupVal_append [b.testBit 1, b.testBit 0]
    [c.testBit 7, c.testBit 6, c.testBit 5, c.testBit 4]
  simp only [List.cons_append, List.nil_append] at h
  rw [h, gv_lo2 b hb, gv_hi4 c hc]
  norm_num

theorem gv_lo4_hi2 (b c : Nat) (hb : b < 256) (hc : c < 256) :
    groupVal [b.testBit 3, b.testBit 2, b.testBit 1, b.testBit 0, c.testBit 7, c.testBit 6]
      = b % 16 * 4 + c / 64 := by
  have h := groupVal_append [b.testBit 3, b.testBit 2, b.testBit 1, b.testBit 0]
    [c.testBit 7, c.testBit 6]
  simp only [List.cons_append, List.nil_append] at h
  rw [h, gv_lo4 b hb, gv_hi2 c hc]
  norm_num

theorem gv_lo2_pad (b : Nat) (hb : b < 256) :
    groupVal [b.testBit 1, b.testBit 0] <<< 4 = b % 4 * 16 := by
  rw [gv_lo2 b hb, Nat.shiftLeft_eq]

theorem gv_lo4_pad (b : Nat) (hb : b < 256) :
    groupVal [b.testBit 3, b.testBit 2, b.testBit 1, b.testBit 0] <<< 2 = b % 16 * 4 := by
  rw [gv_lo4 b hb, Nat.shiftLeft_eq]

theorem encGroupsB_nil : encGroupsB [] = [chB 0] := by
  simp [encGroupsB, groupVal]

theorem encGroupsB_two (x y : Bool) : encGroupsB [x, y] = [chB (groupVal [x, y] <<< 4)] := by
  simp [encGroupsB]

theorem encGroupsB_four (x y z w : Bool) :
    encGroupsB [x, y, z, w] = [chB (groupVal [x, y, z, w] <<< 2)] := by
  simp [encGroupsB]

/-- The character stream of the codec-B encoder is exactly `gvals`
rendered through the alphabet. -/
theorem encB_gvals : ∀ (s : List Nat), (∀ b ∈ s, b < 256) →
    encGroupsB (bitsOf s) = (gvals s).map chB
  | [], _ => by
    simp only [bitsOf, gvals, List.map_cons, List.map_nil]
    exact encGroupsB_nil
  | [b0], h => by
    have hb0 : b0 < 256 := h b0 (by simp)
    simp only [bitsOf, bitsOfByte, List.cons_append, List.nil_append, List.append_eq,
      encGroupsB, gvals, List.map_cons, List.map_nil, List.length_cons, List.length_nil]
    rw [gv_hi6 b0 hb0]
    rw [gv_lo2_pad b0 hb0]
    norm_num
  | [b0, b1], h => by
    have hb0 : b0 < 256 := h b0 (by simp)
    have hb1 : b1 < 256 := h b1 (by simp)
    simp only [bitsOf, bitsOfByte, List.cons_append, List.nil_append, List.append_eq,
      encGroupsB, gvals, List.map_cons, List.map_nil, List.length_cons, List.length_nil]
    rw [gv_hi6 b0 hb0, gv_lo2_hi4 b0 b1 hb0 hb1]
    rw [gv_lo4_pad b1 hb1]
    norm_num
  | b0 :: b1 :: b2 :: rest, h => by
    have hb0 : b0 < 256 := h b0 (by simp)
    have hb1 : b1 < 256 := h b1 (by simp)
    have hb2 : b2 < 256 := h b2 (by simp)
    have ih := encB_gvals rest (fun x hx => h x (by simp [hx]))
    simp only [bitsOf, bitsOfByte, List.cons_append, List.nil_append, List.append_eq,
      encGroupsB, gvals, List.map_cons]
    rw [gv_hi6 b0 hb0, gv_lo2_hi4 b0 b1 hb0 hb1, gv_lo4_hi2 b1 b2 hb1 hb2, gv_lo6 b2 hb2]
    rw [ih]

theorem lookupB_aux : ∀ v < 64, b64B.findIdx? (fun x => x == chB v) = some v := by
  decide

/-- The decoder's reverse table inverts the alphabet on in-range values. -/
theorem lookupB_chB (v : Nat) (hv : v < 64) : lookupB (chB v) = .ok v := by
  unfold lookupB
  rw [lookupB_aux v hv]

/-- `decQuadsB` on a stream of in-alphabet characters computes `dqv` of the
underlying 6-bit values. -/
theorem decQuadsB_map_chB : ∀ (vs : List Nat), (∀ v ∈ vs, v < 64) →
    decQuadsB (vs.map chB) = .ok (dqv vs)
  | [], _ => rfl
  | [v0], _ => rfl
  | [v0, v1], h => by
    have h0 := lookupB_chB v0 (h v0 (by simp))
    have h1 := lookupB_chB v1 (h v1 (by simp))
    simp only [List.map_cons, List.map_nil, decQuadsB]
    rw [h0, h1]
    rfl
  | [v0, v1, v2], h => by
    have h0 := lookupB_chB v0 (h v0 (by simp))
    have h1 := lookupB_chB v1 (h v1 (by simp))
    have h2 := lookupB_chB v2 (h v2 (by simp))
    simp only [List.map_cons, List.map_nil, decQuadsB]
    rw [h0, h1, h2]
    rfl
  | v0 :: v1 :: v2 :: v3 :: rest, h => by
    have h0 := lookupB_chB v0 (h v0 (by simp))
    have h1 := lookupB_chB v1 (h v1 (by simp))
    have h2 := lookupB_chB v2 (h v2 (by simp))
    have h3 := lookupB_chB v3 (h v3 (by simp))
    have ih := decQuadsB_map_chB rest (fun x hx => h x (by simp [hx]))
    simp only [List.map_cons, decQuadsB]
    rw [h0, h1, h2, h3, ih]
    rfl

theorem cons_pre {l1 l2 : List Nat} (x : Nat) (h : l1 <+: l2) :
    x :: l1 <+: x :: l2 := by
  obtain ⟨t, ht⟩ := h
  exact ⟨t, by rw [List.cons_append, ht]⟩

/-- Decoding a front segment of a value stream yields a front segment of the
decoded bytes. -/
theorem dqv_take_pre : ∀ (vs : List Nat) (M : Nat), dqv (vs.take M) <+: dqv vs
  | [], M => by simp
  | [v0], 0 => by simp [dqv]
  | [v0], M + 1 => by simp [dqv]
  | [v0, v1], 0 => by simp [dqv]
  | [v0, v1], 1 => by
    simp only [List.take_succ_cons, List.take_zero, dqv]
    exact List.nil_prefix
  | [v0, v1], M + 2 => by simp
  | [v0, v1, v2], 0 => by simp [dqv]
  | [v0, v1, v2], 1 => by
    simp only [List.take_succ_cons, List.take_zero, dqv]
    exact List.nil_prefix
  | [v0, v1, v2], 2 => by simp [dqv]
  | [v0, v1, v2], M + 3 => by simp
  | v0 :: v1 :: v2 :: v3 :: rest, 0 => by
    simp only [List.take_zero, dqv]
    exact List.nil_prefix
  | v0 :: v1 :: v2 :: v3 :: rest, 1 => by
    simp only [List.take_succ_cons, List.take_zero, dqv]
    exact List.nil_prefix
  | v0 :: v1 :: v2 :: v3 :: rest, 2 => by simp [dqv]
  | v0 :: v1 :: v2 :: v3 :: rest, 3 => by simp [dqv]
  | v0 :: v1 :: v2 :: v3 :: rest, M + 4 => by
    have ih := dqv_take_pre rest M
    simp only [List.take_succ_cons, dqv]
    exact cons_pre _ (cons_pre _ (cons_pre _ ih))

theorem byteB0 (b c : Nat) (hb : b < 256) (hc : c < 256) :
    ((b / 4) <<< 2) % 256 ||| (b % 4 * 16 + c / 16) >>> 4 = b := by
  rw [Nat.shiftLeft_eq, Nat.shiftRight_eq_div_pow]
  have h1 : b / 4 * 2 ^ 2 % 256 = 2 ^ 2 * (b / 4) := by omega
  have h2 : (b % 4 * 16 + c / 16) / 2 ^ 4 = b % 4 := by omega
  rw [h1, h2, or_low 2 (b / 4) (by omega)]
  omega

theorem byteB1 (b c d : Nat) (hb : b < 256) (hc : c < 256) (hd : d < 256) :
    ((b % 4 * 16 + c / 16) <<< 4) % 256 ||| (c % 16 * 4 + d / 64) >>> 2 = c := by
  rw [Nat.shiftLeft_eq, Nat.shiftRight_eq_div_pow]
  have h1 : (b % 4 * 16 + c / 16) * 2 ^ 4 % 256 = 2 ^ 4 * (c / 16) := by omega
  have h2 : (c % 16 * 4 + d / 64) / 2 ^ 2 = c % 16 := by omega
  rw [h1, h2, or_low 4 (c / 16) (by omega)]
  omega

theorem byteB2 (c d : Nat) (hc : c < 256) (hd : d < 256) :
    ((c % 16 * 4 + d / 64) <<< 6) % 256 ||| d % 64 % 256 = d := by
  rw [Nat.shiftLeft_eq]
  have h1 : (c % 16 * 4 + d / 64) * 2 ^ 6 % 256 = 2 ^ 6 * (d / 64) := by omega
  have h2 : d % 64 % 256 = d % 64 := by omega
  rw [h1, h2, or_low 6 (d / 64) (by omega)]
  omega

/-- `dqv` undoes `gvals` exactly: the value stream produced by the encoder,
decoded in full, returns the original bytes. -/
theorem exact_dqv_gvals : ∀ (s : List Nat), (∀ b ∈ s, b < 256) →
    dqv (gvals s) = s
  | [], _ => rfl
  | [b0], h => by
    have hb0 : b0 < 256 := h b0 (by simp)
    simp only [gvals, dqv]
    have h0 := byteB0 b0 0 hb0 (by norm_num)
    norm_num at h0
    rw [h0]
  | [b0, b1], h => by
    have hb0 : b0 < 256 := h b0 (by simp)
    have hb1 : b1 < 256 := h b1 (by simp)
    simp only [gvals, dqv]
    have h0 := byteB0 b0 b1 hb0 hb1
    have h1 := byteB1 b0 b1 0 hb0 hb1 (by norm_num)
    norm_num at h1
    rw [h0, h1]
  | b0 :: b1 :: b2 :: rest, h => by
    have hb0 : b0 < 256 := h b0 (by simp)
    have hb1 : b1 < 256 := h b1 (by simp)
    have hb2 : b2 < 256 := h b2 (by simp)
    have ih := exact_dqv_gvals rest (fun x hx => h x (by simp [hx]))
    simp only [gvals, dqv]
    rw [byteB0 b0 b1 hb0 hb1, byteB1 b0 b1 b2 hb0 hb1 hb2, byteB2 b1 b2 hb1 hb2, ih]

/-- All values produced by `gvals` fit in six bits. -/
theorem gvals_lt : ∀ (s : List Nat), (∀ b ∈ s, b < 256) →
    ∀ v ∈ gvals s, v < 64
  | [], _ => by intro v hv; simp [gvals] at hv; omega
  | [b0], h => by
    have hb0 : b0 < 256 := h b0 (by simp)
    intro v hv
    simp [gvals] at hv
    rcases hv with h' | h' <;> omega
  | [b0, b1], h => by
    have hb0 : b0 < 256 := h b0 (by simp)
    have hb1 : b1 < 256 := h b1 (by simp)
    intro v hv
    simp [gvals] at hv
    rcases hv with h' | h' | h' <;> omega
  | b0 :: b1 :: b2 :: rest, h => by
    have hb0 : b0 < 256 := h b0 (by simp)
    have hb1 : b1 < 256 := h b1 (by simp)
    have hb2 : b2 < 256 := h b2 (by simp)
    have ih := gvals_lt rest (fun x hx => h x (by simp [hx]))
    intro v hv
    simp only [gvals, List.mem_cons] at hv
    rcases hv with h' | h' | h' | h' | h'
    · omega
    · omega
    · omega
    · omega
    · exact ih v h'

/-- Length of the encoder's value stream: four values per three bytes plus
the trailing partial/spurious value. -/
theorem gvals_length : ∀ (s : List Nat),
    (gvals s).length = 4 * (s.length / 3) + s.length % 3 + 1
  | [] => rfl
  | [b0] => by simp only [gvals, List.length_cons, List.length_nil]
  | [b0, b1] => by simp only [gvals, List.length_cons, List.length_nil]
  | b0 :: b1 :: b2 :: rest => by
    have ih := gvals_length rest
    simp only [gvals, List.length_cons]
    omega

/-- The decoder's trim loop on a stream of in-alphabet characters drops
exactly the leading zero-valued characters. -/
theorem trimRevB_map : ∀ (ws : List Nat), (∀ v ∈ ws, v < 64) →
    trimRevB (ws.map chB) = .ok ((ws.dropWhile (fun v => v == 0)).map chB)
  | [], _ => rfl
  | 0 :: ws, h => by
    have ih := trimRevB_map ws (fun x hx => h x (by simp [hx]))
    simpa using ih
  | (n + 1) :: ws, h => by
    have hlk := lookupB_chB (n + 1) (h (n + 1) (by simp))
    simp only [List.map_cons, trimRevB]
    rw [hlk]
    rfl

/-- C8 (amended): the codec-B encoder fails with `IndexError` on inputs of
length 0 or 1; on any input of at least two bytes it succeeds, and every
successful decode of its output returns a front segment (prefix) of the
original bytes — full recovery up to the trimming of trailing zero-valued
characters, which can also swallow trailing zero BYTES of the input or
make the decode fail outright when all characters before the last are
zero-valued. -/
theorem c8_codecB_roundtrip (s : List Nat) (hb : ∀ b ∈ s, b < 256)
    (hlen : 2 ≤ s.length) :
    ∃ cs, dh1080_b64encode s = .ok cs ∧
      ∀ r, dh1080_b64decode cs = .ok r → r <+: s := by
  have hglen := gvals_length s
  have hgv : ∀ v ∈ gvals s, v < 64 := gvals_lt s hb
  have henc : dh1080_b64encode s = .ok ((gvals s).map chB) := by
    simp only [dh1080_b64encode]
    rw [encB_gvals s hb]
    rw [if_pos (by rw [List.length_map]; omega)]
  refine ⟨(gvals s).map chB, henc, ?_⟩
  intro r hr
  simp only [dh1080_b64decode] at hr
  rw [if_neg (by rw [List.length_map]; omega)] at hr
  have hmd : ((gvals s).map chB).dropLast.reverse
      = ((gvals s).dropLast.reverse).map chB := by
    rw [← List.map_dropLast, ← List.map_reverse]
  have hwsb : ∀ v ∈ (gvals s).dropLast.reverse, v < 64 := by
    intro v hv
    exact hgv v ((List.dropLast_sublist (gvals s)).subset (List.mem_reverse.mp hv))
  rw [hmd, trimRevB_map _ hwsb] at hr
  have hr2 : (if ((((gvals s).dropLast.reverse).dropWhile (fun v => v == 0)).map
        chB).length + 1 < 2
      then (Except.error () : Except Unit (List Nat))
      else decQuadsB (((gvals s).map chB).take
        (((((gvals s).dropLast.reverse).dropWhile (fun v => v == 0)).map
          chB).length + 1))) = .ok r := hr
  rw [List.length_map] at hr2
  by_cases hF : ((gvals s).dropLast.reverse.dropWhile (fun v => v == 0)).length + 1 < 2
  · rw [if_pos hF] at hr2
    exact absurd hr2 (by simp)
  · rw [if_neg hF] at hr2
    rw [← List.map_take] at hr2
    rw [decQuadsB_map_chB _ (fun v hv => hgv v (List.take_subset _ _ hv))] at hr2
    simp only [Except.ok.injEq] at hr2
    subst hr2
    have h1 := dqv_take_pre (gvals s)
      (((gvals s).dropLast.reverse.dropWhile (fun v => v == 0)).length + 1)
    rw [exact_dqv_gvals s hb] at h1
    exact h1

/-- C8 counterexample: the claim as stated quantifies over all byte strings
of length at least 1, but on the one-byte input `[0]` the encoder raises
(`d = [0] * len(s) * 2` is exhausted by the terminator write `d[k] = 0`),
so the decode cannot recover the input. -/
theorem c8_counterexample :
    ¬ (∀ s : List Nat, (∀ b ∈ s, b < 256) → 1 ≤ s.length →
      ∃ cs r, dh1080_b64encode s = .ok cs ∧ dh1080_b64decode cs = .ok r ∧
        r <+: s) := by
  intro hall
  obtain ⟨cs, r, hcs, -, -⟩ := hall [0] (by simp) (by simp)
  have he : dh1080_b64encode [0] = .error () := rfl
  rw [he] at hcs
  exact Except.noConfusion hcs

theorem c8_witness :
    (∀ b ∈ ([97, 98] : List Nat), b < 256) ∧ 2 ≤ ([97, 98] : List Nat).length ∧
      ∃ cs, dh1080_b64encode [97, 98] = .ok cs ∧
        ∀ r, dh1080_b64decode cs = .ok r → r <+: [97, 98] :=
  ⟨by decide, by decide, c8_codecB_roundtrip [97, 98] (by decide) (by decide)⟩

end Fish

